import Mathlib

/-
Verification of the fast_compress token compressor (src/data/fast_compress).

The repository contains two near-duplicate implementations of the streaming
greedy phrase-learning compressor:
  - src/data/fast_compress/src/lib.rs  : the single-call (PyO3) variant
  - src/data/fast_compress/src/main.rs : the file-orchestrated variant

Both are shallowly embedded below.  Machine integers are modelled as Nat
(the Rust code uses usize and never overflows in the modelled fragment),
Rust HashMap is modelled as an association list in insertion order (the code
only ever inserts fresh keys with fresh, strictly increasing values before
any observable divergence could occur), and panicking operations
(`unwrap`) are modelled as Option-valued functions returning none.

The lib.rs main loop is embedded with explicit fuel because its disabled-ID
branch `continue`s without advancing the loop index, so the loop does not
terminate on inputs that contain a disabled ID; the `Run` type distinguishes
a normal result, a panic, and fuel exhaustion.
-/

namespace FastCompress

/-- Outcome of running a fuel-indexed embedding of a Rust loop: a normal
result, a Rust panic, or fuel exhaustion (the loop did not finish within
the given number of iterations). -/
inductive Run (α : Type) where
  | ok : α → Run α
  | crash : Run α
  | fuelOut : Run α
deriving DecidableEq, Repr

/-- A phrase: an ordered sequence of token IDs, the key type of the codebook. -/
abbrev Phrase := List Nat

/-- The codebook map, modelled as an association list in insertion order.
Values are assigned substitute IDs. -/
abbrev Codebook := List (Phrase × Nat)

/-- Association-list lookup for the codebook (models `FxHashMap::get` /
`contains_key`). -/
def lookupPhrase : Codebook → Phrase → Option Nat
  | [], _ => none
  | kv :: rest, p => if kv.1 = p then some kv.2 else lookupPhrase rest p

/-- `codebook_contains` from lib.rs lines 6-17 / main.rs lines 28-39:
a length-1 phrase is "contained" iff its ID is below `initial_vocab_size`;
otherwise membership in the map decides. -/
def codebook_contains (codebook : Codebook) (ids : Phrase) (initial_vocab_size : Nat) : Bool :=
  if ids.length = 1 then decide (ids.headD 0 < initial_vocab_size)
  else (lookupPhrase codebook ids).isSome

/-- `get_usize_from_codebook` from lib.rs lines 19-26 / main.rs lines 41-48:
a length-1 phrase maps to its own ID; otherwise the map is consulted and a
missing key is a panic (`unwrap`), modelled as `none`. -/
def get_usize_from_codebook (codebook : Codebook) (ids : Phrase) : Option Nat :=
  if ids.length = 1 then some (ids.headD 0) else lookupPhrase codebook ids

/-- `disabled_ids_to_set` from lib.rs lines 28-40 / main.rs lines 50-62.
The disabled set is modelled by the list itself (membership is all that is
ever used).  `d_ids.iter().max().unwrap()` panics when the supplied list is
empty, modelled by `maximum?` returning `none`. -/
def disabled_ids_to_set (disabled_ids : Option (List Nat)) : Option (List Nat) :=
  match disabled_ids with
  | none => some []
  | some d_ids => (d_ids.max?).map (fun _ => d_ids)

/-- The mutable state of one `compress` invocation: the emitted output so
far (`compressed_ids`), the codebook map, the next free substitute ID, and
the in-progress candidate phrase (`ids_to_merge`). -/
structure MergeState where
  compressed : List Nat
  cb : Codebook
  nextId : Nat
  cand : List Nat
deriving DecidableEq, Repr

/-- The state at the top of the `compress` loop in both variants. -/
def startState (initial_vocab_size : Nat) : MergeState :=
  { compressed := [], cb := [], nextId := initial_vocab_size, cand := [] }

/-- One iteration of the `while` body of `compress` in lib.rs (lines 58-91),
assuming the loop guard holds.  Returns the next loop index together with
the next state, or `none` on panic.  Note that the disabled-ID branch
returns the UNCHANGED index `i` (the Rust `continue` at line 67 skips the
`i += 1` at line 90). -/
def libStep (ids : List Nat) (initial_vocab_size max_codebook_size max_subtokens : Nat)
    (disabled : List Nat) (i : Nat) (st : MergeState) : Option (Nat × MergeState) :=
  let id := ids.getD i 0
  if disabled.contains id then
    match (if st.cand.isEmpty then some st.compressed
           else (get_usize_from_codebook st.cb st.cand).map (fun c => st.compressed ++ [c])) with
    | none => none
    | some comp =>
        some (i, { compressed := comp ++ [id], cb := st.cb, nextId := st.nextId, cand := [] })
  else
    let cand := st.cand ++ [id]
    let afterNew : Option MergeState :=
      if codebook_contains st.cb cand initial_vocab_size then
        some { st with cand := cand }
      else
        let cbN : Codebook × Nat :=
          if st.nextId < initial_vocab_size + max_codebook_size
          then (st.cb ++ [(cand, st.nextId)], st.nextId + 1)
          else (st.cb, st.nextId)
        (get_usize_from_codebook cbN.1 cand.dropLast).map (fun c =>
          { compressed := st.compressed ++ [c], cb := cbN.1, nextId := cbN.2, cand := [id] })
    match afterNew with
    | none => none
    | some st1 =>
      if st1.cand.length = max_subtokens then
        (get_usize_from_codebook st1.cb st1.cand).map (fun c =>
          (i + 1, { st1 with compressed := st1.compressed ++ [c], cand := [] }))
      else some (i + 1, st1)

/-- The `while i < ids.len() && i < max_out_seq_length` loop of lib.rs
(lines 57-91), indexed by fuel (one unit per executed iteration). -/
def libLoop (fuel : Nat) (ids : List Nat)
    (initial_vocab_size max_codebook_size max_subtokens max_out_seq_length : Nat)
    (disabled : List Nat) (i : Nat) (st : MergeState) : Run (Nat × MergeState) :=
  match fuel with
  | 0 => Run.fuelOut
  | fuel + 1 =>
    if i < ids.length ∧ i < max_out_seq_length then
      match libStep ids initial_vocab_size max_codebook_size max_subtokens disabled i st with
      | none => Run.crash
      | some (j, st1) =>
          libLoop fuel ids initial_vocab_size max_codebook_size max_subtokens
            max_out_seq_length disabled j st1
    else Run.ok (i, st)

/-- The post-loop flushes of lib.rs (lines 93-102): the defensive
over-length flush, then the final flush of a non-empty candidate. -/
def libFinish (max_subtokens : Nat) (st : MergeState) : Option MergeState :=
  let stA : Option MergeState :=
    if max_subtokens < st.cand.length then
      (get_usize_from_codebook st.cb st.cand.dropLast).map (fun c =>
        { st with compressed := st.compressed ++ [c], cand := [st.cand.getLastD 0] })
    else some st
  stA.bind (fun st1 =>
    if st1.cand.isEmpty then some st1
    else (get_usize_from_codebook st1.cb st1.cand).map (fun c =>
      { st1 with compressed := st1.compressed ++ [c] }))

/-- Rust `Vec::resize(n, pad)`: truncate to `n` elements or extend with
`pad` up to `n` elements. -/
def padResize (l : List Nat) (n pad : Nat) : List Nat :=
  l.take n ++ List.replicate (n - l.length) pad

/-- Insert one codebook entry into a list sorted by assigned value. -/
def insertByVal (e : Phrase × Nat) : Codebook → Codebook
  | [] => [e]
  | f :: rest => if e.2 ≤ f.2 then e :: f :: rest else f :: insertByVal e rest

/-- Sort codebook entries by assigned substitute ID, ascending (models the
`sorted_by(|(_, v), (_, v2)| v.cmp(v2))` iteration in both variants; values
are distinct so the order is unique). -/
def sortByVal : Codebook → Codebook
  | [] => []
  | e :: rest => insertByVal e (sortByVal rest)

/-- lib.rs lines 104-114: serialize the codebook as a table of phrase rows,
each row resized to `max_subtokens` with the boundary marker, the table
resized to `max_codebook_size` rows of all-boundary-marker padding. -/
def serializeCodebook (cb : Codebook) (max_codebook_size max_subtokens eot_token_id : Nat) :
    List (List Nat) :=
  let rows : List (List Nat) :=
    (sortByVal cb).map (fun kv => padResize kv.1 max_subtokens eot_token_id)
  rows.take max_codebook_size ++
    List.replicate (max_codebook_size - rows.length) (List.replicate max_subtokens eot_token_id)

/-- main.rs lines 160-170: the flattened serialized codebook, resized to
`max_codebook_size * max_subtokens` values with the boundary marker. -/
def serializeCodebookFlat (cb : Codebook) (max_codebook_size max_subtokens eot_token_id : Nat) :
    List Nat :=
  padResize (((sortByVal cb).map (fun kv => padResize kv.1 max_subtokens eot_token_id)).flatten)
    (max_codebook_size * max_subtokens) eot_token_id

/-- lib.rs lines 116-124: scan forward through the given suffix (whose first
element has absolute index `j`) for the first occurrence of the boundary
marker, returning its absolute index. -/
def findEotFrom (eot_token_id : Nat) : List Nat → Nat → Option Nat
  | [], _ => none
  | x :: rest, j => if x = eot_token_id then some j else findEotFrom eot_token_id rest (j + 1)

/-- The result of the lib.rs `compress` (lines 42-133): the compressed IDs,
the raw codebook entries (kept for specification purposes), the serialized
codebook table, the leftover slice, and the number of raw IDs consumed. -/
structure LibResult where
  compressed : List Nat
  entries : Codebook
  codebookVec : List (List Nat)
  remaining : Option (List Nat)
  consumed : Nat
deriving DecidableEq, Repr

/-- lib.rs `compress` (lines 42-133), with explicit loop fuel. -/
def libCompressWith (fuel : Nat) (ids : List Nat)
    (initial_vocab_size max_codebook_size max_subtokens max_out_seq_length eot_token_id : Nat)
    (disabled : List Nat) : Run LibResult :=
  match libLoop fuel ids initial_vocab_size max_codebook_size max_subtokens
      max_out_seq_length disabled 0 (startState initial_vocab_size) with
  | Run.crash => Run.crash
  | Run.fuelOut => Run.fuelOut
  | Run.ok (i, st) =>
    match libFinish max_subtokens st with
    | none => Run.crash
    | some st2 =>
        Run.ok
          { compressed := st2.compressed
            entries := st2.cb
            codebookVec := serializeCodebook st2.cb max_codebook_size max_subtokens eot_token_id
            remaining := (findEotFrom eot_token_id (ids.drop i) i).map (fun j => ids.drop j)
            consumed := i }

/-- lib.rs `compress` with the canonical fuel `ids.length + 1`, which is
sufficient for every terminating run of the loop (the index starts at 0,
every non-disabled iteration advances it by one, and the loop exits once it
reaches `ids.length`). -/
def libCompress (ids : List Nat)
    (initial_vocab_size max_codebook_size max_subtokens max_out_seq_length eot_token_id : Nat)
    (disabled : List Nat) : Run LibResult :=
  libCompressWith (ids.length + 1) ids initial_vocab_size max_codebook_size max_subtokens
    max_out_seq_length eot_token_id disabled

/-- `py_compress` from lib.rs lines 135-157: builds the disabled set (which
panics on an explicitly supplied empty list) and forwards to `compress`.
The outer `none` is the set-building panic. -/
def py_compress (ids : List Nat)
    (initial_vocab_size max_codebook_size max_subtokens max_out_seq_length eot_token_id : Nat)
    (disabled_ids : Option (List Nat)) : Option (Run LibResult) :=
  (disabled_ids_to_set disabled_ids).map (fun s =>
    libCompress ids initial_vocab_size max_codebook_size max_subtokens
      max_out_seq_length eot_token_id s)

/-- Strip trailing copies of `pad` from a list (used to read a phrase back
out of a padded codebook table row). -/
def stripTrailing (pad : Nat) (l : List Nat) : List Nat :=
  ((l.reverse).dropWhile (fun x => x = pad)).reverse

/-- Decode one compressed ID against a serialized codebook table: a raw ID
(below `initial_vocab_size`) stands for itself, a substitute ID is replaced
by the phrase stored in its table row (trailing boundary-marker padding
removed). -/
def decodeId (table : List (List Nat)) (initial_vocab_size eot_token_id c : Nat) : List Nat :=
  if c < initial_vocab_size then [c]
  else stripTrailing eot_token_id (table.getD (c - initial_vocab_size) [])

/-- Decode a compressed-ID sequence against a serialized codebook table by
substituting each ID's phrase and concatenating. -/
def decodeSeq (table : List (List Nat)) (initial_vocab_size eot_token_id : Nat)
    (out : List Nat) : List Nat :=
  (out.map (decodeId table initial_vocab_size eot_token_id)).flatten

/-- Decode the compressed output of a lib.rs run against its codebook
table, or `none` when the run did not complete normally. -/
def runDecode (r : Run LibResult) (initial_vocab_size eot_token_id : Nat) :
    Option (List Nat) :=
  match r with
  | Run.ok x => some (decodeSeq x.codebookVec initial_vocab_size eot_token_id x.compressed)
  | _ => none

/-- `push_to_compressed_ids` from main.rs lines 64-69: append only while
the output is strictly below `max_out_seq_length`, otherwise drop. -/
def push_to_compressed_ids (compressed_ids : List Nat) (id max_out_seq_length : Nat) : List Nat :=
  if compressed_ids.length < max_out_seq_length then compressed_ids ++ [id] else compressed_ids

/-- One iteration of the `while` body of `compress` in main.rs
(lines 93-139), assuming the loop guard holds.  All emissions go through
`push_to_compressed_ids`; both branches advance `i` (the disabled branch
has `i += 1; continue;`).  Reading `ids[offset + i]` out of bounds is a
panic (`none`). -/
def mainStep (ids : List Nat) (offset initial_vocab_size max_codebook_size max_subtokens
    max_out_seq_length : Nat) (disabled : List Nat) (i : Nat) (st : MergeState) :
    Option MergeState :=
  match ids.get? (offset + i) with
  | none => none
  | some id =>
    if disabled.contains id then
      match (if st.cand.isEmpty then some st.compressed
             else (get_usize_from_codebook st.cb st.cand).map (fun c =>
               push_to_compressed_ids st.compressed c max_out_seq_length)) with
      | none => none
      | some comp =>
          some
            { compressed := push_to_compressed_ids comp id max_out_seq_length
              cb := st.cb
              nextId := st.nextId
              cand := [] }
    else
      let cand := st.cand ++ [id]
      let afterNew : Option MergeState :=
        if codebook_contains st.cb cand initial_vocab_size then
          some { st with cand := cand }
        else
          let cbN : Codebook × Nat :=
            if st.nextId < initial_vocab_size + max_codebook_size
            then (st.cb ++ [(cand, st.nextId)], st.nextId + 1)
            else (st.cb, st.nextId)
          (get_usize_from_codebook cbN.1 cand.dropLast).map (fun c =>
            { compressed := push_to_compressed_ids st.compressed c max_out_seq_length
              cb := cbN.1
              nextId := cbN.2
              cand := [id] })
      match afterNew with
      | none => none
      | some st1 =>
        if st1.cand.length = max_subtokens then
          (get_usize_from_codebook st1.cb st1.cand).map (fun c =>
            { st1 with
              compressed := push_to_compressed_ids st1.compressed c max_out_seq_length
              cand := [] })
        else some st1

/-- The `while offset + i < num_tokens && compressed_ids.len() <
max_out_seq_length` loop of main.rs (lines 92-139).  Every iteration
advances `i`, so fuel `num_tokens + 1` always suffices. -/
def mainLoop (fuel : Nat) (ids : List Nat) (offset num_tokens initial_vocab_size
    max_codebook_size max_subtokens max_out_seq_length : Nat) (disabled : List Nat)
    (i : Nat) (st : MergeState) : Run (Nat × MergeState) :=
  match fuel with
  | 0 => Run.fuelOut
  | fuel + 1 =>
    if offset + i < num_tokens ∧ st.compressed.length < max_out_seq_length then
      match mainStep ids offset initial_vocab_size max_codebook_size max_subtokens
          max_out_seq_length disabled i st with
      | none => Run.crash
      | some st1 =>
          mainLoop fuel ids offset num_tokens initial_vocab_size max_codebook_size
            max_subtokens max_out_seq_length disabled (i + 1) st1
    else Run.ok (i, st)

/-- The post-loop flushes of main.rs (lines 141-158), with capped pushes. -/
def mainFinish (max_subtokens max_out_seq_length : Nat) (st : MergeState) : Option MergeState :=
  let stA : Option MergeState :=
    if max_subtokens < st.cand.length then
      (get_usize_from_codebook st.cb st.cand.dropLast).map (fun c =>
        { st with
          compressed := push_to_compressed_ids st.compressed c max_out_seq_length
          cand := [st.cand.getLastD 0] })
    else some st
  stA.bind (fun st1 =>
    if st1.cand.isEmpty then some st1
    else (get_usize_from_codebook st1.cb st1.cand).map (fun c =>
      { st1 with compressed := push_to_compressed_ids st1.compressed c max_out_seq_length }))

/-- The result of the main.rs `compress` (lines 71-173): compressed window,
raw codebook entries, the flattened serialized codebook, and the count of
raw IDs consumed. -/
structure MainResult where
  compressed : List Nat
  entries : Codebook
  codebookFlat : List Nat
  consumed : Nat
deriving DecidableEq, Repr

/-- main.rs `compress` (lines 71-173).  Before the loop, if the first raw
ID of the window is not the boundary marker, one boundary marker is pushed
(uncapped `Vec::push`, lines 88-90). -/
def mainCompress (ids : List Nat) (offset num_tokens initial_vocab_size max_codebook_size
    max_subtokens max_out_seq_length eot_token_id : Nat) (disabled : List Nat) :
    Run MainResult :=
  match ids.get? offset with
  | none => Run.crash
  | some first =>
    let st0 : MergeState :=
      { startState initial_vocab_size with
        compressed := if first ≠ eot_token_id then [eot_token_id] else [] }
    match mainLoop (num_tokens + 1) ids offset num_tokens initial_vocab_size max_codebook_size
        max_subtokens max_out_seq_length disabled 0 st0 with
    | Run.crash => Run.crash
    | Run.fuelOut => Run.fuelOut
    | Run.ok (i, st) =>
      match mainFinish max_subtokens max_out_seq_length st with
      | none => Run.crash
      | some st2 =>
          Run.ok
            { compressed := st2.compressed
              entries := st2.cb
              codebookFlat :=
                serializeCodebookFlat st2.cb max_codebook_size max_subtokens eot_token_id
              consumed := i }

/-- Decode a compressed-ID sequence against the codebook map itself: a raw
ID stands for itself, a substitute ID is replaced by the (unique) phrase the
map assigns it to.  Used as a stepping stone towards table-based decoding. -/
def decodeM (initial_vocab_size : Nat) (cb : Codebook) (out : List Nat) : List Nat :=
  (out.map (fun c =>
    if c < initial_vocab_size then [c]
    else ((cb.find? (fun kv => kv.2 == c)).map Prod.fst).getD [])).flatten

/-- Structural well-formedness of the codebook: assigned substitute IDs
are exactly `initial_vocab_size, initial_vocab_size + 1, ...` in insertion
order, the next free ID is one past the last, and capacity is respected. -/
def CBInv (initial_vocab_size max_codebook_size : Nat) (st : MergeState) : Prop :=
  st.cb.map Prod.snd = List.range' initial_vocab_size st.cb.length ∧
    st.nextId = initial_vocab_size + st.cb.length ∧ st.cb.length ≤ max_codebook_size

/-- Flush safety: the candidate phrase is empty or contained in the
codebook, and strictly shorter than `max_subtokens`. -/
def SafeInv (initial_vocab_size max_subtokens : Nat) (st : MergeState) : Prop :=
  st.cand.length < max_subtokens ∧
    (st.cand = [] ∨ codebook_contains st.cb st.cand initial_vocab_size = true)

/-- Counting invariant for the output-length bound of the lib.rs variant:
emitted plus buffered IDs never exceed the number of consumed input IDs,
the loop index is capped, and no codebook key is empty. -/
def CountInv (max_out_seq_length i : Nat) (st : MergeState) : Prop :=
  st.compressed.length + st.cand.length ≤ i ∧ i ≤ max_out_seq_length ∧
    ∀ kv ∈ st.cb, kv.1 ≠ []

/-- Length bounds on codebook keys and the candidate phrase. -/
def KeyLenInv (max_subtokens : Nat) (st : MergeState) : Prop :=
  (∀ kv ∈ st.cb, kv.1.length ≤ max_subtokens) ∧ st.cand.length < max_subtokens

/-- The full invariant of the lib.rs compress loop on inputs whose IDs are
all raw (below `initial_vocab_size`), not disabled, and distinct from the
boundary marker: structural codebook well-formedness, key/candidate
constraints, flush safety, and the decoding equation stating that output
decoded against the current codebook followed by the pending candidate
reproduces the consumed input prefix. -/
structure C1Inv (ids : List Nat)
    (initial_vocab_size max_codebook_size max_subtokens max_out_seq_length eot_token_id : Nat)
    (i : Nat) (st : MergeState) : Prop where
  cbVals : st.cb.map Prod.snd = List.range' initial_vocab_size st.cb.length
  cbLen : st.cb.length ≤ max_codebook_size
  nid : st.nextId = initial_vocab_size + st.cb.length
  keys : ∀ kv ∈ st.cb, kv.1 ≠ [] ∧ kv.1.length ≤ max_subtokens ∧
    ∀ x ∈ kv.1, x < initial_vocab_size ∧ x ≠ eot_token_id
  candLen : st.cand.length < max_subtokens
  candOk : st.cand = [] ∨ codebook_contains st.cb st.cand initial_vocab_size = true
  candElems : ∀ x ∈ st.cand, x < initial_vocab_size ∧ x ≠ eot_token_id
  outBound : ∀ c ∈ st.compressed, c < initial_vocab_size + st.cb.length
  dec : decodeM initial_vocab_size st.cb st.compressed ++ st.cand = ids.take i
  iLe : i ≤ ids.length ∧ i ≤ max_out_seq_length

theorem lookupPhrase_append_of_some {cb : Codebook} {p : Phrase} {v : Nat} (cb2 : Codebook)
    (h : lookupPhrase cb p = some v) : lookupPhrase (cb ++ cb2) p = some v := by
  induction cb with
  | nil => simp [lookupPhrase] at h
  | cons kv rest ih =>
    by_cases hk : kv.1 = p
    · simp only [lookupPhrase, hk, if_pos] at h ⊢
      exact h
    · simp only [List.cons_append, lookupPhrase, hk, if_neg, if_false] at h ⊢
      exact ih h

theorem lookupPhrase_append_of_none {cb : Codebook} {p : Phrase} (cb2 : Codebook)
    (h : lookupPhrase cb p = none) : lookupPhrase (cb ++ cb2) p = lookupPhrase cb2 p := by
  induction cb with
  | nil => simp
  | cons kv rest ih =>
    by_cases hk : kv.1 = p
    · simp only [lookupPhrase, hk, if_pos] at h
      exact absurd h (by simp)
    · simp only [lookupPhrase, hk, if_neg, if_false] at h
      simpa only [List.cons_append, lookupPhrase, hk, if_neg, if_false] using ih h

theorem lookupPhrase_mem {cb : Codebook} {p : Phrase} {v : Nat}
    (h : lookupPhrase cb p = some v) : (p, v) ∈ cb := by
  induction cb with
  | nil => simp [lookupPhrase] at h
  | cons kv rest ih =>
    by_cases hk : kv.1 = p
    · simp only [lookupPhrase, hk, if_pos, Option.some.injEq] at h
      have hkv : kv = (p, v) := by
        calc kv = (kv.1, kv.2) := rfl
          _ = (p, v) := by rw [hk, h]
      rw [hkv]
      exact List.mem_cons_self _ _
    · simp only [lookupPhrase, hk, if_neg, if_false] at h
      exact List.mem_cons_of_mem _ (ih h)

theorem lookupPhrase_isSome_of_mem {cb : Codebook} {p : Phrase} {v : Nat}
    (h : (p, v) ∈ cb) : (lookupPhrase cb p).isSome = true := by
  induction cb with
  | nil => simp at h
  | cons kv rest ih =>
    by_cases hk : kv.1 = p
    · simp [lookupPhrase, hk]
    · rcases List.mem_cons.mp h with h1 | h1
      · exact absurd (congrArg Prod.fst h1.symm) hk
      · simpa [lookupPhrase, hk] using ih h1

theorem lookupPhrase_none_of_not_mem {cb : Codebook} {p : Phrase}
    (h : ∀ kv ∈ cb, kv.1 ≠ p) : lookupPhrase cb p = none := by
  induction cb with
  | nil => rfl
  | cons kv rest ih =>
    have hk : kv.1 ≠ p := h kv (List.mem_cons_self _ _)
    simp only [lookupPhrase, hk, if_neg, if_false]
    exact ih (fun e he => h e (List.mem_cons_of_mem _ he))

theorem value_bound_of_WF {cb : Codebook} {vocab : Nat}
    (hWF : cb.map Prod.snd = List.range' vocab cb.length) {k : Phrase} {c : Nat}
    (hmem : (k, c) ∈ cb) : vocab ≤ c ∧ c < vocab + cb.length := by
  have hc : c ∈ cb.map Prod.snd := List.mem_map.mpr ⟨(k, c), hmem, rfl⟩
  rw [hWF] at hc
  exact List.mem_range'_1.mp hc

theorem find?_value_eq {cb : Codebook} {vocab : Nat}
    (hWF : cb.map Prod.snd = List.range' vocab cb.length) {k : Phrase} {c : Nat}
    (hmem : (k, c) ∈ cb) : cb.find? (fun kv => kv.2 == c) = some (k, c) := by
  induction cb generalizing vocab with
  | nil => simp at hmem
  | cons kv rest ih =>
    have hWF2 : kv.2 = vocab ∧ rest.map Prod.snd = List.range' (vocab + 1) rest.length := by
      have h := hWF
      rw [List.length_cons, List.range'_succ, List.map_cons] at h
      exact ⟨List.head_eq_of_cons_eq h, List.tail_eq_of_cons_eq h⟩
    rcases List.mem_cons.mp hmem with h1 | h1
    · rw [← h1]
      simp [List.find?]
    · have hge : vocab + 1 ≤ c := (value_bound_of_WF hWF2.2 h1).1
      have hne : (kv.2 == c) = false := by
        simp only [beq_eq_false_iff_ne, ne_eq, hWF2.1]
        omega
      rw [List.find?_cons, hne]
      exact ih hWF2.2 h1

theorem decodeM_append (vocab : Nat) (cb : Codebook) (l1 l2 : List Nat) :
    decodeM vocab cb (l1 ++ l2) = decodeM vocab cb l1 ++ decodeM vocab cb l2 := by
  simp [decodeM]

theorem decodeM_single_raw {vocab c : Nat} (cb : Codebook) (h : c < vocab) :
    decodeM vocab cb [c] = [c] := by
  simp [decodeM, h]

theorem decodeM_single_key {cb : Codebook} {vocab : Nat}
    (hWF : cb.map Prod.snd = List.range' vocab cb.length) {k : Phrase} {c : Nat}
    (hmem : (k, c) ∈ cb) : decodeM vocab cb [c] = k := by
  have hge := (value_bound_of_WF hWF hmem).1
  simp [decodeM, Nat.not_lt.mpr hge, find?_value_eq hWF hmem]

theorem decodeM_grow {cb : Codebook} {vocab : Nat} (e : Phrase × Nat)
    (he : vocab + cb.length ≤ e.2) {l : List Nat}
    (hl : ∀ c ∈ l, c < vocab + cb.length) :
    decodeM vocab (cb ++ [e]) l = decodeM vocab cb l := by
  unfold decodeM
  congr 1
  apply List.map_congr_left
  intro c hc
  by_cases h : c < vocab
  · simp [h]
  · have hfind : List.find? (fun kv => kv.2 == c) [e] = none := by
      have : (e.2 == c) = false := by
        simp only [beq_eq_false_iff_ne, ne_eq]
        have := hl c hc
        omega
      simp [List.find?, this]
    simp only [h, if_false, List.find?_append, hfind, Option.or_none]

theorem flush_emit {cb : Codebook} {vocab : Nat} {cand : Phrase}
    (hWF : cb.map Prod.snd = List.range' vocab cb.length)
    (hcontained : codebook_contains cb cand vocab = true) (hne : cand ≠ []) :
    ∃ c, get_usize_from_codebook cb cand = some c ∧ c < vocab + cb.length ∧
      decodeM vocab cb [c] = cand := by
  by_cases hlen : cand.length = 1
  · obtain ⟨x, hx⟩ := List.length_eq_one.mp hlen
    subst hx
    have hxv : x < vocab := by
      simpa [codebook_contains] using hcontained
    exact ⟨x, by simp [get_usize_from_codebook], by omega,
      decodeM_single_raw cb hxv⟩
  · have hsome : (lookupPhrase cb cand).isSome = true := by
      simpa [codebook_contains, hlen] using hcontained
    obtain ⟨c, hc⟩ := Option.isSome_iff_exists.mp hsome
    have hmem := lookupPhrase_mem hc
    refine ⟨c, ?_, (value_bound_of_WF hWF hmem).2, decodeM_single_key hWF hmem⟩
    simp [get_usize_from_codebook, hlen, hc]

theorem libStep_spec {ids : List Nat} {vocab maxCb maxSub : Nat} {disabled : List Nat}
    {i : Nat} {st : MergeState} {j : Nat} {st' : MergeState}
    (h : libStep ids vocab maxCb maxSub disabled i st = some (j, st')) :
    (disabled.contains (ids.getD i 0) = true ∧ j = i ∧ st'.cb = st.cb ∧
      st'.nextId = st.nextId ∧ st'.cand = [] ∧
      ((st.cand = [] ∧ st'.compressed = st.compressed ++ [ids.getD i 0]) ∨
       (st.cand ≠ [] ∧ ∃ c, get_usize_from_codebook st.cb st.cand = some c ∧
         st'.compressed = st.compressed ++ [c, ids.getD i 0]))) ∨
    (disabled.contains (ids.getD i 0) = false ∧ j = i + 1 ∧ ∃ st1 : MergeState,
      ((codebook_contains st.cb (st.cand ++ [ids.getD i 0]) vocab = true ∧
         st1 = { st with cand := st.cand ++ [ids.getD i 0] }) ∨
       (codebook_contains st.cb (st.cand ++ [ids.getD i 0]) vocab = false ∧
         ∃ c, get_usize_from_codebook
             (if st.nextId < vocab + maxCb
              then st.cb ++ [(st.cand ++ [ids.getD i 0], st.nextId)] else st.cb) st.cand
             = some c ∧
           st1 = { compressed := st.compressed ++ [c]
                   cb := if st.nextId < vocab + maxCb
                         then st.cb ++ [(st.cand ++ [ids.getD i 0], st.nextId)] else st.cb
                   nextId := if st.nextId < vocab + maxCb then st.nextId + 1 else st.nextId
                   cand := [ids.getD i 0] })) ∧
      ((st1.cand.length = maxSub ∧ ∃ c2, get_usize_from_codebook st1.cb st1.cand = some c2 ∧
         st' = { st1 with compressed := st1.compressed ++ [c2], cand := [] }) ∨
       (st1.cand.length ≠ maxSub ∧ st' = st1))) := by
  simp only [libStep] at h
  by_cases hdis : disabled.contains (ids.getD i 0)
  · rw [if_pos hdis] at h
    left
    by_cases hc : st.cand.isEmpty
    · rw [if_pos hc] at h
      simp only [Option.some.injEq, Prod.mk.injEq] at h
      refine ⟨hdis, h.1.symm, ?_, ?_, ?_, Or.inl ⟨List.isEmpty_iff.mp hc, ?_⟩⟩ <;>
        simp [← h.2]
    · rw [if_neg hc] at h
      cases hg : get_usize_from_codebook st.cb st.cand with
      | none => rw [hg] at h; simp at h
      | some c =>
        rw [hg] at h
        simp only [Option.map_some', Option.some.injEq, Prod.mk.injEq] at h
        refine ⟨hdis, h.1.symm, ?_, ?_, ?_,
          Or.inr ⟨fun hh => hc (by simp [hh]), c, rfl, ?_⟩⟩ <;> simp [← h.2]
  · rw [if_neg hdis] at h
    by_cases hcont : codebook_contains st.cb (st.cand ++ [ids.getD i 0]) vocab = true
    · rw [if_pos hcont] at h
      right
      refine ⟨by simpa using hdis, ?_, { st with cand := st.cand ++ [ids.getD i 0] }, Or.inl ⟨hcont, rfl⟩, ?_⟩
      all_goals {
        by_cases hlen : st.cand.length + 1 = maxSub
        · simp only [List.length_append, List.length_singleton, hlen, if_pos] at h
          cases hg2 : get_usize_from_codebook st.cb (st.cand ++ [ids.getD i 0]) with
          | none => rw [hg2] at h; simp at h
          | some c2 =>
            rw [hg2] at h
            simp only [Option.map_some', Option.some.injEq, Prod.mk.injEq] at h
            first
            | exact h.1.symm
            | exact Or.inl ⟨by simpa using hlen, c2, rfl, h.2.symm⟩
        · simp only [List.length_append, List.length_singleton, hlen, if_neg, if_false] at h
          simp only [Option.some.injEq, Prod.mk.injEq] at h
          first
          | exact h.1.symm
          | exact Or.inr ⟨by simpa using hlen, h.2.symm⟩
      }
    · rw [if_neg hcont] at h
      right
      rw [List.dropLast_concat] at h
      have hfst : (if st.nextId < vocab + maxCb
          then (st.cb ++ [(st.cand ++ [ids.getD i 0], st.nextId)], st.nextId + 1)
          else (st.cb, st.nextId)).1
          = (if st.nextId < vocab + maxCb
             then st.cb ++ [(st.cand ++ [ids.getD i 0], st.nextId)] else st.cb) := by
        by_cases hcap : st.nextId < vocab + maxCb <;> simp [hcap]
      have hsnd : (if st.nextId < vocab + maxCb
          then (st.cb ++ [(st.cand ++ [ids.getD i 0], st.nextId)], st.nextId + 1)
          else (st.cb, st.nextId)).2
          = (if st.nextId < vocab + maxCb then st.nextId + 1 else st.nextId) := by
        by_cases hcap : st.nextId < vocab + maxCb <;> simp [hcap]
      rw [hfst, hsnd] at h
      cases hg : get_usize_from_codebook
          (if st.nextId < vocab + maxCb
           then st.cb ++ [(st.cand ++ [ids.getD i 0], st.nextId)] else st.cb) st.cand with
      | none => rw [hg] at h; simp at h
      | some c =>
        rw [hg] at h
        simp only [Option.map_some'] at h
        refine ⟨by simpa using hdis, ?_, _,
          Or.inr ⟨by simpa using hcont, c, rfl, rfl⟩, ?_⟩
        all_goals {
          by_cases hlen : ([ids.getD i 0] : List Nat).length = maxSub
          · rw [if_pos hlen] at h
            cases hg2 : get_usize_from_codebook
                (if st.nextId < vocab + maxCb
                 then st.cb ++ [(st.cand ++ [ids.getD i 0], st.nextId)] else st.cb)
                [ids.getD i 0] with
            | none => rw [hg2] at h; simp at h
            | some c2 =>
              rw [hg2] at h
              simp only [Option.map_some', Option.some.injEq, Prod.mk.injEq] at h
              first
              | exact h.1.symm
              | exact Or.inl ⟨hlen, c2, rfl, h.2.symm⟩
          · rw [if_neg hlen] at h
            simp only [Option.some.injEq, Prod.mk.injEq] at h
            first
            | exact h.1.symm
            | exact Or.inr ⟨hlen, h.2.symm⟩
        }

theorem range'_concat_one (s n : Nat) :
    List.range' s (n + 1) = List.range' s n ++ [s + n] := by
  simpa using @List.range'_concat 1 s n

theorem CBInv_step {ids : List Nat} {vocab maxCb maxSub : Nat} {disabled : List Nat}
    {i j : Nat} {st st' : MergeState}
    (h : libStep ids vocab maxCb maxSub disabled i st = some (j, st'))
    (hinv : CBInv vocab maxCb st) : CBInv vocab maxCb st' := by
  obtain ⟨hv, hn, hl⟩ := hinv
  rcases libStep_spec h with ⟨_, _, hcb, hnid, _, _⟩ | ⟨_, _, st1, h1, h2⟩
  · refine ⟨hcb ▸ hv, ?_, hcb ▸ hl⟩
    rw [hnid, hcb]
    exact hn
  · have h1inv : CBInv vocab maxCb st1 := by
      rcases h1 with ⟨_, rfl⟩ | ⟨hnc, c, hg, rfl⟩
      · exact ⟨hv, hn, hl⟩
      · by_cases hcap : st.nextId < vocab + maxCb
        · simp only [if_pos hcap]
          refine ⟨?_, ?_, ?_⟩
          · show List.map Prod.snd (st.cb ++ [(st.cand ++ [ids.getD i 0], st.nextId)])
              = List.range' vocab (st.cb ++ [(st.cand ++ [ids.getD i 0], st.nextId)]).length
            rw [List.map_append, List.length_append, hv, hn]
            simp only [List.map_cons, List.map_nil, List.length_cons, List.length_nil]
            rw [range'_concat_one]
          · show st.nextId + 1 = vocab + (st.cb ++ [(st.cand ++ [ids.getD i 0], st.nextId)]).length
            rw [List.length_append]
            simp only [List.length_cons, List.length_nil]
            omega
          · show (st.cb ++ [(st.cand ++ [ids.getD i 0], st.nextId)]).length ≤ maxCb
            rw [List.length_append]
            simp only [List.length_cons, List.length_nil]
            omega
        · simp only [if_neg hcap]
          exact ⟨hv, hn, hl⟩
    rcases h2 with ⟨_, c2, _, rfl⟩ | ⟨_, rfl⟩
    · exact h1inv
    · exact h1inv

theorem getD_mem_of_lt {l : List Nat} {i : Nat} (h : i < l.length) : l.getD i 0 ∈ l := by
  rw [List.getD_eq_getElem l 0 h]
  exact List.getElem_mem h

theorem get_usize_isSome_of_contains {cb : Codebook} {cand : Phrase} {vocab : Nat}
    (hcont : codebook_contains cb cand vocab = true) :
    (get_usize_from_codebook cb cand).isSome = true := by
  by_cases hlen : cand.length = 1
  · simp [get_usize_from_codebook, hlen]
  · have : (lookupPhrase cb cand).isSome = true := by
      simpa [codebook_contains, hlen] using hcont
    simpa [get_usize_from_codebook, hlen] using this

theorem get_usize_append_of_some {cb : Codebook} {cand : Phrase} {c : Nat}
    (cb2 : Codebook) (h : get_usize_from_codebook cb cand = some c) :
    get_usize_from_codebook (cb ++ cb2) cand = some c := by
  by_cases hlen : cand.length = 1
  · simpa [get_usize_from_codebook, hlen] using h
  · simp only [get_usize_from_codebook, hlen, if_neg, if_false] at h ⊢
    exact lookupPhrase_append_of_some cb2 h

theorem KeysNE_step {ids : List Nat} {vocab maxCb maxSub : Nat} {disabled : List Nat}
    {i j : Nat} {st st' : MergeState}
    (h : libStep ids vocab maxCb maxSub disabled i st = some (j, st'))
    (hinv : ∀ kv ∈ st.cb, kv.1 ≠ []) : ∀ kv ∈ st'.cb, kv.1 ≠ [] := by
  rcases libStep_spec h with ⟨_, _, hcb, _, _, _⟩ | ⟨_, _, st1, h1, h2⟩
  · rw [hcb]; exact hinv
  · have h1inv : ∀ kv ∈ st1.cb, kv.1 ≠ [] := by
      rcases h1 with ⟨_, rfl⟩ | ⟨hnc, c, hg, rfl⟩
      · exact hinv
      · by_cases hcap : st.nextId < vocab + maxCb
        · simp only [if_pos hcap]
          intro kv hkv
          rcases List.mem_append.mp hkv with hold | hnew
          · exact hinv kv hold
          · rcases List.mem_singleton.mp hnew with rfl
            simp
        · simp only [if_neg hcap]
          exact hinv
    rcases h2 with ⟨_, c2, _, rfl⟩ | ⟨_, rfl⟩
    · exact h1inv
    · exact h1inv

theorem SafeInv_step {ids : List Nat} {vocab maxCb maxSub : Nat} {disabled : List Nat}
    {i j : Nat} {st st' : MergeState}
    (h : libStep ids vocab maxCb maxSub disabled i st = some (j, st'))
    (hms : 1 ≤ maxSub)
    (hid : disabled.contains (ids.getD i 0) = false → ids.getD i 0 < vocab)
    (hinv : SafeInv vocab maxSub st) : SafeInv vocab maxSub st' := by
  rcases libStep_spec h with ⟨_, _, hcb, _, hcand, _⟩ | ⟨hdis, _, st1, h1, h2⟩
  · refine ⟨by rw [hcand]; simpa using hms, Or.inl hcand⟩
  · have hlt := hid hdis
    rcases h2 with ⟨_, c2, _, rfl⟩ | ⟨hlen2, rfl⟩
    · exact ⟨by simpa using hms, Or.inl rfl⟩
    · rcases h1 with ⟨hcont, rfl⟩ | ⟨hnc, c, hg, rfl⟩
      · refine ⟨?_, Or.inr hcont⟩
        have hK := hinv.1
        have : (st.cand ++ [ids.getD i 0]).length = st.cand.length + 1 := by simp
        rw [this]
        have hne : ({ st with cand := st.cand ++ [ids.getD i 0] } : MergeState).cand.length
            ≠ maxSub := hlen2
        simp only [this] at hne
        omega
      · have hcontN : codebook_contains
            (if st.nextId < vocab + maxCb
             then st.cb ++ [(st.cand ++ [ids.getD i 0], st.nextId)] else st.cb)
            [ids.getD i 0] vocab = true := by
          simpa [codebook_contains] using hlt
        refine ⟨?_, Or.inr hcontN⟩
        have hne : ([ids.getD i 0] : List Nat).length ≠ maxSub := hlen2
        simp only [List.length_singleton] at hne ⊢
        omega

theorem KeyLenInv_step {ids : List Nat} {vocab maxCb maxSub : Nat} {disabled : List Nat}
    {i j : Nat} {st st' : MergeState}
    (h : libStep ids vocab maxCb maxSub disabled i st = some (j, st'))
    (hms : 1 ≤ maxSub)
    (hinv : KeyLenInv maxSub st) : KeyLenInv maxSub st' := by
  obtain ⟨hkeys, hK⟩ := hinv
  rcases libStep_spec h with ⟨_, _, hcb, _, hcand, _⟩ | ⟨hdis, _, st1, h1, h2⟩
  · exact ⟨by rw [hcb]; exact hkeys, by rw [hcand]; simpa using hms⟩
  · have h1keys : ∀ kv ∈ st1.cb, kv.1.length ≤ maxSub := by
      rcases h1 with ⟨_, rfl⟩ | ⟨hnc, c, hg, rfl⟩
      · exact hkeys
      · by_cases hcap : st.nextId < vocab + maxCb
        · simp only [if_pos hcap]
          intro kv hkv
          rcases List.mem_append.mp hkv with hold | hnew
          · exact hkeys kv hold
          · rcases List.mem_singleton.mp hnew with rfl
            simp only [List.length_append, List.length_singleton]
            omega
        · simp only [if_neg hcap]
          exact hkeys
    rcases h2 with ⟨_, c2, _, rfl⟩ | ⟨hlen2, rfl⟩
    · exact ⟨h1keys, by simpa using hms⟩
    · refine ⟨h1keys, ?_⟩
      rcases h1 with ⟨hcont, rfl⟩ | ⟨hnc, c, hg, rfl⟩
      · have hne : ({ st with cand := st.cand ++ [ids.getD i 0] } : MergeState).cand.length
            ≠ maxSub := hlen2
        simp only [List.length_append, List.length_singleton] at hne ⊢
        omega
      · have hne : ([ids.getD i 0] : List Nat).length ≠ maxSub := hlen2
        simp only [List.length_singleton] at hne ⊢
        omega

theorem cand_ne_nil_of_get_usize {cb : Codebook} {cand : Phrase} {c : Nat}
    (hkeys : ∀ kv ∈ cb, kv.1 ≠ []) (hg : get_usize_from_codebook cb cand = some c) :
    cand ≠ [] := by
  intro hc
  subst hc
  simp only [get_usize_from_codebook, List.length_nil] at hg
  have hmem := lookupPhrase_mem (by simpa using hg)
  exact (hkeys _ hmem) rfl

theorem CountInv_step {ids : List Nat} {vocab maxCb maxSub maxOut : Nat} {disabled : List Nat}
    {i j : Nat} {st st' : MergeState}
    (h : libStep ids vocab maxCb maxSub disabled i st = some (j, st'))
    (hdis : disabled.contains (ids.getD i 0) = false)
    (hi : i < maxOut)
    (hinv : CountInv maxOut i st) : CountInv maxOut (i + 1) st' ∧ j = i + 1 := by
  obtain ⟨hck, hile, hkeys⟩ := hinv
  have hkeys' := KeysNE_step h hkeys
  rcases libStep_spec h with ⟨hd, _, _, _, _, _⟩ | ⟨_, hj, st1, h1, h2⟩
  · rw [hdis] at hd
    exact absurd hd (by simp)
  · refine ⟨⟨?_, by omega, hkeys'⟩, hj⟩
    rcases h1 with ⟨hcont, rfl⟩ | ⟨hnc, c, hg, rfl⟩
    · rcases h2 with ⟨_, c2, _, rfl⟩ | ⟨_, rfl⟩
      · simp only [List.length_append, List.length_singleton, List.length_nil]
        omega
      · simp only [List.length_append, List.length_singleton]
        omega
    · have hkeys1 : ∀ kv ∈ (if st.nextId < vocab + maxCb
          then st.cb ++ [(st.cand ++ [ids.getD i 0], st.nextId)] else st.cb), kv.1 ≠ [] := by
        by_cases hcap : st.nextId < vocab + maxCb
        · simp only [if_pos hcap]
          intro kv hkv
          rcases List.mem_append.mp hkv with hold | hnew
          · exact hkeys kv hold
          · rcases List.mem_singleton.mp hnew with rfl
            simp
        · simp only [if_neg hcap]
          exact hkeys
      have hKne : st.cand ≠ [] := cand_ne_nil_of_get_usize hkeys1 hg
      have hK1 : 1 ≤ st.cand.length := by
        cases hcnd : st.cand with
        | nil => exact absurd hcnd hKne
        | cons a l => simp
      rcases h2 with ⟨_, c2, _, rfl⟩ | ⟨_, rfl⟩
      · simp only [List.length_append, List.length_singleton, List.length_nil]
        omega
      · simp only [List.length_append, List.length_singleton]
        omega

theorem libStep_isSome {ids : List Nat} {vocab maxCb maxSub : Nat} {disabled : List Nat}
    {i : Nat} {st : MergeState}
    (hid : disabled.contains (ids.getD i 0) = false → ids.getD i 0 < vocab)
    (hsafe : st.cand = [] ∨ codebook_contains st.cb st.cand vocab = true) :
    (libStep ids vocab maxCb maxSub disabled i st).isSome = true := by
  simp only [libStep]
  by_cases hdis : disabled.contains (ids.getD i 0)
  · rw [if_pos hdis]
    by_cases hc : st.cand.isEmpty
    · rw [if_pos hc]
      rfl
    · rw [if_neg hc]
      have hcont : codebook_contains st.cb st.cand vocab = true := by
        rcases hsafe with hnil | hcont
        · exact absurd (by simp [hnil] : st.cand.isEmpty = true) hc
        · exact hcont
      obtain ⟨c, hcv⟩ := Option.isSome_iff_exists.mp (get_usize_isSome_of_contains hcont)
      rw [hcv]
      rfl
  · rw [if_neg hdis]
    have hlt := hid (by simpa using hdis)
    by_cases hcont : codebook_contains st.cb (st.cand ++ [ids.getD i 0]) vocab = true
    · rw [if_pos hcont]
      by_cases hlen : (st.cand ++ [ids.getD i 0]).length = maxSub
      · simp only [hlen, if_pos]
        obtain ⟨c2, hc2⟩ := Option.isSome_iff_exists.mp (get_usize_isSome_of_contains hcont)
        rw [hc2]
        rfl
      · simp only [hlen, if_neg, if_false]
        rfl
    · rw [if_neg hcont]
      rw [List.dropLast_concat]
      by_cases hcnd : st.cand = []
      · exfalso
        apply hcont
        rw [hcnd]
        simpa [codebook_contains] using hlt
      · have hcontc : codebook_contains st.cb st.cand vocab = true :=
          hsafe.resolve_left hcnd
        obtain ⟨c, hcv⟩ := Option.isSome_iff_exists.mp (get_usize_isSome_of_contains hcontc)
        have hcv1 : get_usize_from_codebook
            (if st.nextId < vocab + maxCb
             then (st.cb ++ [(st.cand ++ [ids.getD i 0], st.nextId)], st.nextId + 1)
             else (st.cb, st.nextId)).1 st.cand = some c := by
          by_cases hcap : st.nextId < vocab + maxCb
          · simp only [if_pos hcap]
            exact get_usize_append_of_some _ hcv
          · simp only [if_neg hcap]
            exact hcv
        rw [hcv1]
        simp only [Option.map_some']
        by_cases hlen : ([ids.getD i 0] : List Nat).length = maxSub
        · simp only [hlen, if_pos]
          simp [get_usize_from_codebook]
        · simp only [hlen, if_neg, if_false]
          rfl

theorem libLoop_ok_CBInv {ids : List Nat} {vocab maxCb maxSub maxOut : Nat}
    {disabled : List Nat} :
    ∀ (fuel i : Nat) (st : MergeState) (p : Nat × MergeState),
      libLoop fuel ids vocab maxCb maxSub maxOut disabled i st = Run.ok p →
      CBInv vocab maxCb st → CBInv vocab maxCb p.2 := by
  intro fuel
  induction fuel with
  | zero =>
    intro i st p h
    simp [libLoop] at h
  | succ n ih =>
    intro i st p h hinv
    rw [libLoop] at h
    by_cases hg : i < ids.length ∧ i < maxOut
    · rw [if_pos hg] at h
      cases hstep : libStep ids vocab maxCb maxSub disabled i st with
      | none =>
        rw [hstep] at h
        exact absurd h (by simp)
      | some pr =>
        rw [hstep] at h
        obtain ⟨j, st1⟩ := pr
        exact ih j st1 p h (CBInv_step hstep hinv)
    · rw [if_neg hg] at h
      have : p = (i, st) := by
        have := h
        simp only [Run.ok.injEq] at this
        exact this.symm
      rw [this]
      exact hinv

theorem libFinish_cb {maxSub : Nat} {st st2 : MergeState}
    (h : libFinish maxSub st = some st2) : st2.cb = st.cb ∧ st2.nextId = st.nextId := by
  simp only [libFinish] at h
  by_cases hlen : maxSub < st.cand.length
  · rw [if_pos hlen] at h
    cases hg : get_usize_from_codebook st.cb st.cand.dropLast with
    | none =>
      rw [hg] at h
      exact absurd h (by simp)
    | some c =>
      rw [hg] at h
      simp only [Option.map_some', Option.some_bind] at h
      by_cases hc : ([st.cand.getLastD 0] : List Nat).isEmpty
      · simp at hc
      · rw [if_neg (by simpa using hc)] at h
        cases hg2 : get_usize_from_codebook st.cb [st.cand.getLastD 0] with
        | none =>
          rw [hg2] at h
          exact absurd h (by simp)
        | some c2 =>
          rw [hg2] at h
          simp only [Option.map_some', Option.some.injEq] at h
          rw [← h]
          exact ⟨rfl, rfl⟩
  · rw [if_neg hlen] at h
    simp only [Option.some_bind] at h
    by_cases hc : st.cand.isEmpty
    · rw [if_pos hc] at h
      simp only [Option.some.injEq] at h
      rw [← h]
      exact ⟨rfl, rfl⟩
    · rw [if_neg hc] at h
      cases hg : get_usize_from_codebook st.cb st.cand with
      | none =>
        rw [hg] at h
        exact absurd h (by simp)
      | some c =>
        rw [hg] at h
        simp only [Option.map_some', Option.some.injEq] at h
        rw [← h]
        exact ⟨rfl, rfl⟩

/-- C6: within one lib.rs compress window, substitute IDs are assigned
strictly increasing starting at `initial_vocab_size` (the codebook values
are exactly `initial_vocab_size, initial_vocab_size + 1, ...` in assignment
order, never reused or overwritten), the codebook never exceeds
`max_codebook_size` entries, and once `max_codebook_size` entries are held
a registration attempt leaves the codebook and the next-ID counter
unchanged while the step still succeeds and continues emitting. -/
theorem c6_capacity_policy :
    (∀ (fuel : Nat) (ids : List Nat)
       (vocab maxCb maxSub maxOut eot : Nat) (disabled : List Nat) (r : LibResult),
       libCompressWith fuel ids vocab maxCb maxSub maxOut eot disabled = Run.ok r →
       r.entries.map Prod.snd = List.range' vocab r.entries.length ∧
         r.entries.length ≤ maxCb)
    ∧ (∀ (ids : List Nat) (vocab maxCb maxSub : Nat) (disabled : List Nat)
        (i : Nat) (st : MergeState) (j : Nat) (st' : MergeState),
        st.nextId = vocab + st.cb.length → maxCb ≤ st.cb.length →
        libStep ids vocab maxCb maxSub disabled i st = some (j, st') →
        st'.cb = st.cb ∧ st'.nextId = st.nextId) := by
  constructor
  · intro fuel ids vocab maxCb maxSub maxOut eot disabled r h
    simp only [libCompressWith] at h
    cases hloop : libLoop fuel ids vocab maxCb maxSub maxOut disabled 0 (startState vocab) with
    | crash => rw [hloop] at h; exact absurd h (by simp)
    | fuelOut => rw [hloop] at h; exact absurd h (by simp)
    | ok p =>
      rw [hloop] at h
      obtain ⟨i, st⟩ := p
      dsimp only at h
      cases hfin : libFinish maxSub st with
      | none => rw [hfin] at h; exact absurd h (by simp)
      | some st2 =>
        rw [hfin] at h
        simp only [Run.ok.injEq] at h
        have hstart : CBInv vocab maxCb (startState vocab) :=
          ⟨rfl, rfl, Nat.zero_le maxCb⟩
        have hst : CBInv vocab maxCb st :=
          libLoop_ok_CBInv fuel 0 (startState vocab) (i, st) hloop hstart
        have hcb2 := (libFinish_cb hfin).1
        have hre : r.entries = st2.cb := by rw [← h]
        rw [hre, hcb2]
        exact ⟨hst.1, hst.2.2⟩
  · intro ids vocab maxCb maxSub disabled i st j st' hnid hfull h
    rcases libStep_spec h with ⟨_, _, hcb, hni, _, _⟩ | ⟨_, _, st1, h1, h2⟩
    · exact ⟨hcb, hni⟩
    · have hcap : ¬ st.nextId < vocab + maxCb := by omega
      have h1eq : st1.cb = st.cb ∧ st1.nextId = st.nextId := by
        rcases h1 with ⟨_, rfl⟩ | ⟨_, c, _, rfl⟩
        · exact ⟨rfl, rfl⟩
        · exact ⟨by simp [hcap], by simp [hcap]⟩
      rcases h2 with ⟨_, c2, _, rfl⟩ | ⟨_, rfl⟩
      · exact h1eq
      · exact h1eq

/-- Witness for C6 at concrete inputs: the spec section 8 example run, and
a one-step registration attempt on a full codebook. -/
theorem c6_capacity_policy_witness :
    (∃ r, libCompressWith 11 [5,6,5,6,5,6,5,6,5,6] 100 4 3 10 0 [] = Run.ok r ∧
       r.entries.map Prod.snd = List.range' 100 r.entries.length ∧
         r.entries.length ≤ 4)
    ∧ ((⟨[], [([1,2],100)], 101, [5]⟩ : MergeState).cb
         = (⟨[], [([1,2],100)], 101, []⟩ : MergeState).cb ∧
       (⟨[], [([1,2],100)], 101, [5]⟩ : MergeState).nextId
         = (⟨[], [([1,2],100)], 101, []⟩ : MergeState).nextId) := by
  constructor
  · exact ⟨_, rfl, c6_capacity_policy.1 11 [5,6,5,6,5,6,5,6,5,6] 100 4 3 10 0 [] _ rfl⟩
  · exact c6_capacity_policy.2 [5] 100 1 3 [] 0 ⟨[], [([1,2],100)], 101, []⟩ 1
      ⟨[], [([1,2],100)], 101, [5]⟩ rfl (by decide) (by decide)

theorem libLoop_disabled_fuelOut {ids : List Nat} {vocab maxCb maxSub maxOut : Nat}
    {disabled : List Nat} {i : Nat}
    (hlen : i < ids.length) (hout : i < maxOut)
    (hdis : disabled.contains (ids.getD i 0) = true) :
    ∀ (fuel : Nat) (st : MergeState), st.cand = [] →
      libLoop fuel ids vocab maxCb maxSub maxOut disabled i st = Run.fuelOut := by
  intro fuel
  induction fuel with
  | zero =>
    intro st _
    rfl
  | succ n ih =>
    intro st hcand
    rw [libLoop, if_pos ⟨hlen, hout⟩]
    have hstep : libStep ids vocab maxCb maxSub disabled i st
        = some (i, { compressed := st.compressed ++ [ids.getD i 0], cb := st.cb,
                     nextId := st.nextId, cand := [] }) := by
      simp only [libStep]
      rw [if_pos hdis, if_pos (by rw [hcand]; rfl)]
    rw [hstep]
    exact ih _ rfl

theorem getD_zero_eq_headD (ids : List Nat) : ids.getD 0 0 = ids.headD 0 := by
  cases ids <;> rfl

/-- C2: REFUTED on lib.rs - the compress loop does not terminate whenever
the ID at the current position is in the disabled set, because the
disabled-ID branch `continue`s without executing `i += 1` (lib.rs lines
61-68 versus line 90).  For any input whose first ID is disabled, any
positive output cap, and EVERY fuel bound, the loop fails to finish. -/
theorem c2_lib_loop_no_single_pass :
    ∀ (fuel : Nat) (ids : List Nat) (vocab maxCb maxSub maxOut eot : Nat)
      (disabled : List Nat),
      ids ≠ [] → 0 < maxOut → disabled.contains (ids.headD 0) = true →
      libCompressWith fuel ids vocab maxCb maxSub maxOut eot disabled = Run.fuelOut := by
  intro fuel ids vocab maxCb maxSub maxOut eot disabled hne hout hdis
  have hlen : 0 < ids.length := List.length_pos.mpr hne
  have hdis0 : disabled.contains (ids.getD 0 0) = true := by
    rw [getD_zero_eq_headD]
    exact hdis
  have hloop := @libLoop_disabled_fuelOut ids vocab maxCb maxSub maxOut disabled 0
    hlen hout hdis0 fuel (startState vocab) rfl
  simp only [libCompressWith]
  rw [hloop]

/-- Witness for C2's refutation at a concrete input: input `[7]` with
disabled set `{7}` and fuel 5. -/
theorem c2_lib_loop_no_single_pass_witness :
    ([7] : List Nat) ≠ [] ∧ 0 < 10 ∧ ([7] : List Nat).contains (([7] : List Nat).headD 0) = true ∧
    libCompressWith 5 [7] 100 4 3 10 0 [7] = Run.fuelOut :=
  ⟨by decide, by decide, by decide,
    c2_lib_loop_no_single_pass 5 [7] 100 4 3 10 0 [7] (by decide) (by decide) (by decide)⟩

/-- C3: REFUTED on lib.rs - on input `[5, 0]` with the boundary marker `0`
disabled, compress never returns (for every fuel bound), so the disabled ID
does not appear anywhere in any output; the claim's pass-through guarantee
fails because the disabled-ID branch never advances the loop index. -/
theorem c3_disabled_passthrough_bug :
    ∀ fuel : Nat, libCompressWith fuel [5, 0] 100 4 3 10 0 [0] = Run.fuelOut := by
  intro fuel
  match fuel with
  | 0 => rfl
  | 1 => rfl
  | (n + 2) =>
    simp only [libCompressWith]
    rw [libLoop, if_pos (by decide : (0 : Nat) < ([5, 0] : List Nat).length ∧ (0:Nat) < 10)]
    rw [show libStep [5, 0] 100 4 3 [0] 0 (startState 100)
        = some (1, ⟨[], [], 100, [5]⟩) from rfl]
    show (match libLoop (n + 1) [5, 0] 100 4 3 10 [0] 1 ⟨[], [], 100, [5]⟩ with
      | Run.crash => Run.crash
      | Run.fuelOut => Run.fuelOut
      | Run.ok (i, st) => _) = Run.fuelOut
    rw [libLoop, if_pos (by decide : (1 : Nat) < ([5, 0] : List Nat).length ∧ (1:Nat) < 10)]
    rw [show libStep [5, 0] 100 4 3 [0] 1 ⟨[], [], 100, [5]⟩
        = some (1, ⟨[5, 0], [], 100, []⟩) from rfl]
    rw [show (match some (1, (⟨[5, 0], [], 100, []⟩ : MergeState)) with
      | none => Run.crash
      | some (j, st1) => libLoop n [5, 0] 100 4 3 10 [0] j st1)
      = libLoop n [5, 0] 100 4 3 10 [0] 1 ⟨[5, 0], [], 100, []⟩ from rfl]
    rw [libLoop_disabled_fuelOut (by decide) (by decide) (by decide) n _ rfl]

/-- C10: REFUTED - calling the single-call interface with an explicitly
supplied EMPTY disabled-ID list panics while building the disabled set
(`d_ids.iter().max().unwrap()` on an empty list, lib.rs line 33), whereas
omitting the list succeeds. -/
theorem c10_empty_disabled_counterexample :
    py_compress [5] 100 4 3 10 0 (some []) = none ∧
      (py_compress [5] 100 4 3 10 0 none).isSome = true :=
  ⟨rfl, rfl⟩

/-- C10 amended: omitting the disabled-ID list yields the empty disabled
set, and an explicitly supplied NON-empty list succeeds and is forwarded
unchanged; the explicitly-empty list is the one failing case, panicking in
`disabled_ids_to_set`. -/
theorem c10_disabled_set_amended :
    (∀ (ids : List Nat) (vocab maxCb maxSub maxOut eot : Nat),
      py_compress ids vocab maxCb maxSub maxOut eot none
        = some (libCompress ids vocab maxCb maxSub maxOut eot [])) ∧
    (∀ (d : List Nat), d ≠ [] → ∀ (ids : List Nat) (vocab maxCb maxSub maxOut eot : Nat),
      py_compress ids vocab maxCb maxSub maxOut eot (some d)
        = some (libCompress ids vocab maxCb maxSub maxOut eot d)) ∧
    disabled_ids_to_set (some []) = none := by
  refine ⟨fun ids vocab maxCb maxSub maxOut eot => rfl, ?_, rfl⟩
  intro d hd ids vocab maxCb maxSub maxOut eot
  have hmax : (d.max?).isSome = true := by
    cases hm : d.max? with
    | none => exact absurd (List.max?_eq_none_iff.mp hm) hd
    | some m => rfl
  obtain ⟨m, hm⟩ := Option.isSome_iff_exists.mp hmax
  simp [py_compress, disabled_ids_to_set, hm]

/-- Witness for the amended C10 at a concrete input: the non-empty
explicit list `[0]`. -/
theorem c10_disabled_set_amended_witness :
    py_compress [5] 100 4 3 10 0 (some [0])
      = some (libCompress [5] 100 4 3 10 0 [0]) :=
  c10_disabled_set_amended.2.1 [0] (by decide) [5] 100 4 3 10 0

theorem getD_drop (ids : List Nat) (i k : Nat) :
    (ids.drop i).getD k 0 = ids.getD (i + k) 0 := by
  simp [List.getD_eq_getElem?_getD, List.getElem?_drop]

theorem findEotFrom_none_spec (eot : Nat) : ∀ (l : List Nat) (j0 : Nat),
    findEotFrom eot l j0 = none → ∀ k, k < l.length → l.getD k 0 ≠ eot := by
  intro l
  induction l with
  | nil =>
    intro j0 _ k hk
    simp at hk
  | cons x rest ih =>
    intro j0 h k hk
    simp only [findEotFrom] at h
    by_cases hx : x = eot
    · rw [if_pos hx] at h
      exact absurd h (by simp)
    · rw [if_neg hx] at h
      cases k with
      | zero => simpa using hx
      | succ k1 =>
        have := ih (j0 + 1) h k1 (by simpa using Nat.lt_of_succ_lt_succ hk)
        simpa using this

theorem findEotFrom_some_spec (eot : Nat) : ∀ (l : List Nat) (j0 j : Nat),
    findEotFrom eot l j0 = some j →
    j0 ≤ j ∧ j - j0 < l.length ∧ l.getD (j - j0) 0 = eot ∧
      ∀ k, k < j - j0 → l.getD k 0 ≠ eot := by
  intro l
  induction l with
  | nil =>
    intro j0 j h
    simp [findEotFrom] at h
  | cons x rest ih =>
    intro j0 j h
    simp only [findEotFrom] at h
    by_cases hx : x = eot
    · rw [if_pos hx] at h
      simp only [Option.some.injEq] at h
      subst h
      refine ⟨Nat.le_refl _, by simp, ?_, ?_⟩
      · simpa using hx
      · intro k hk
        omega
    · rw [if_neg hx] at h
      obtain ⟨h1, h2, h3, h4⟩ := ih (j0 + 1) j h
      refine ⟨by omega, by simp; omega, ?_, ?_⟩
      · have hd : j - j0 = (j - (j0 + 1)) + 1 := by omega
        rw [hd]
        simpa using h3
      · intro k hk
        cases k with
        | zero => simpa using hx
        | succ k1 =>
          have := h4 k1 (by omega)
          simpa using this

/-- C8: leftover-slice reporting (lib.rs lines 116-132).  For every normal
run, the third result is determined by scanning forward from the index
where consumption stopped for the next occurrence of the boundary marker:
`none` exactly when no such occurrence exists, and otherwise the input
suffix starting at the FIRST such occurrence (so no raw ID strictly
between the consumption point and that occurrence is part of the slice). -/
theorem c8_leftover_slice :
    ∀ (fuel : Nat) (ids : List Nat) (vocab maxCb maxSub maxOut eot : Nat)
      (disabled : List Nat) (r : LibResult),
      libCompressWith fuel ids vocab maxCb maxSub maxOut eot disabled = Run.ok r →
      (r.remaining = none → ∀ j, r.consumed ≤ j → j < ids.length → ids.getD j 0 ≠ eot) ∧
      (∀ s, r.remaining = some s → ∃ j, r.consumed ≤ j ∧ j < ids.length ∧
        ids.getD j 0 = eot ∧ (∀ m, r.consumed ≤ m → m < j → ids.getD m 0 ≠ eot) ∧
        s = ids.drop j) := by
  intro fuel ids vocab maxCb maxSub maxOut eot disabled r h
  simp only [libCompressWith] at h
  cases hloop : libLoop fuel ids vocab maxCb maxSub maxOut disabled 0 (startState vocab) with
  | crash => rw [hloop] at h; exact absurd h (by simp)
  | fuelOut => rw [hloop] at h; exact absurd h (by simp)
  | ok p =>
    rw [hloop] at h
    obtain ⟨i, st⟩ := p
    dsimp only at h
    cases hfin : libFinish maxSub st with
    | none => rw [hfin] at h; exact absurd h (by simp)
    | some st2 =>
      rw [hfin] at h
      simp only [Run.ok.injEq] at h
      have hrem : r.remaining = (findEotFrom eot (ids.drop i) i).map (fun j => ids.drop j) := by
        rw [← h]
      have hcons : r.consumed = i := by rw [← h]
      constructor
      · intro hnone j hij hjlen
        rw [hrem] at hnone
        cases hscan : findEotFrom eot (ids.drop i) i with
        | some v => rw [hscan] at hnone; exact absurd hnone (by simp)
        | none =>
          have hk := findEotFrom_none_spec eot (ids.drop i) i hscan (j - i)
          rw [hcons] at hij
          have hlen : j - i < (ids.drop i).length := by
            rw [List.length_drop]
            omega
          have := hk hlen
          rw [getD_drop] at this
          have hji : i + (j - i) = j := by omega
          rw [hji] at this
          exact this
      · intro s hsome
        rw [hrem] at hsome
        cases hscan : findEotFrom eot (ids.drop i) i with
        | none => rw [hscan] at hsome; exact absurd hsome (by simp)
        | some j =>
          rw [hscan] at hsome
          simp only [Option.map_some', Option.some.injEq] at hsome
          obtain ⟨h1, h2, h3, h4⟩ := findEotFrom_some_spec eot (ids.drop i) i j hscan
          rw [List.length_drop] at h2
          rw [getD_drop] at h3
          have hji : i + (j - i) = j := by omega
          rw [hji] at h3
          refine ⟨j, by rw [hcons]; omega, by omega, h3, ?_, hsome.symm⟩
          intro m him hmj
          rw [hcons] at him
          have := h4 (m - i) (by omega)
          rw [getD_drop] at this
          have hmi : i + (m - i) = m := by omega
          rw [hmi] at this
          exact this

/-- Witness for C8 at a concrete input: consumption stops at index 2
(`max_out_seq_length = 2`), the scan finds the boundary marker at index 3,
and the suffix `[0, 5]` is returned. -/
theorem c8_leftover_slice_witness :
    ∃ r, libCompress [1, 2, 3, 0, 5] 100 4 3 2 0 [] = Run.ok r ∧
      ∃ j, r.consumed ≤ j ∧ j < ([1, 2, 3, 0, 5] : List Nat).length ∧
        ([1, 2, 3, 0, 5] : List Nat).getD j 0 = 0 ∧
        (∀ m, r.consumed ≤ m → m < j → ([1, 2, 3, 0, 5] : List Nat).getD m 0 ≠ 0) ∧
        ([0, 5] : List Nat) = ([1, 2, 3, 0, 5] : List Nat).drop j :=
  ⟨_, rfl, (c8_leftover_slice 6 [1, 2, 3, 0, 5] 100 4 3 2 0 [] _ rfl).2 [0, 5] rfl⟩

theorem libLoop_disabled_ne_ok {ids : List Nat} {vocab maxCb maxSub maxOut : Nat}
    {disabled : List Nat} {i : Nat}
    (hlen : i < ids.length) (hout : i < maxOut)
    (hdis : disabled.contains (ids.getD i 0) = true) :
    ∀ (fuel : Nat) (st : MergeState) (p : Nat × MergeState),
      libLoop fuel ids vocab maxCb maxSub maxOut disabled i st ≠ Run.ok p := by
  intro fuel
  induction fuel with
  | zero =>
    intro st p h
    exact absurd h (by simp [libLoop])
  | succ n ih =>
    intro st p h
    rw [libLoop, if_pos ⟨hlen, hout⟩] at h
    cases hstep : libStep ids vocab maxCb maxSub disabled i st with
    | none =>
      rw [hstep] at h
      exact absurd h (by simp)
    | some pr =>
      rw [hstep] at h
      obtain ⟨j, st1⟩ := pr
      rcases libStep_spec hstep with ⟨_, hj, _, _, _, _⟩ | ⟨hd, _, _, _, _⟩
      · subst hj
        exact ih st1 p h
      · rw [hdis] at hd
        exact absurd hd (by simp)

theorem libLoop_ok_CountInv {ids : List Nat} {vocab maxCb maxSub maxOut : Nat}
    {disabled : List Nat} :
    ∀ (fuel i : Nat) (st : MergeState) (p : Nat × MergeState),
      libLoop fuel ids vocab maxCb maxSub maxOut disabled i st = Run.ok p →
      CountInv maxOut i st → CountInv maxOut p.1 p.2 := by
  intro fuel
  induction fuel with
  | zero =>
    intro i st p h
    simp [libLoop] at h
  | succ n ih =>
    intro i st p h hinv
    by_cases hg : i < ids.length ∧ i < maxOut
    · by_cases hdis : disabled.contains (ids.getD i 0) = true
      · exact absurd h (libLoop_disabled_ne_ok hg.1 hg.2 hdis (n + 1) st p)
      · rw [libLoop, if_pos hg] at h
        cases hstep : libStep ids vocab maxCb maxSub disabled i st with
        | none =>
          rw [hstep] at h
          exact absurd h (by simp)
        | some pr =>
          rw [hstep] at h
          obtain ⟨j, st1⟩ := pr
          obtain ⟨hinv1, hj⟩ := CountInv_step hstep (by simpa using hdis) hg.2 hinv
          exact ih j st1 p h (by rw [hj]; exact hinv1)
    · rw [libLoop, if_neg hg] at h
      have hp : p = (i, st) := by
        simpa [eq_comm] using h
      rw [hp]
      exact hinv

theorem libFinish_count {maxSub : Nat} {st st2 : MergeState}
    (h : libFinish maxSub st = some st2)
    (hkeys : ∀ kv ∈ st.cb, kv.1 ≠ []) :
    st2.compressed.length ≤ st.compressed.length + st.cand.length := by
  simp only [libFinish] at h
  by_cases hlen : maxSub < st.cand.length
  · rw [if_pos hlen] at h
    cases hg : get_usize_from_codebook st.cb st.cand.dropLast with
    | none =>
      rw [hg] at h
      exact absurd h (by simp)
    | some c =>
      have hdne : st.cand.dropLast ≠ [] := cand_ne_nil_of_get_usize hkeys hg
      have hK2 : 2 ≤ st.cand.length := by
        have h1 : 1 ≤ st.cand.dropLast.length := by
          cases hdl : st.cand.dropLast with
          | nil => exact absurd hdl hdne
          | cons a l => simp
        rw [List.length_dropLast] at h1
        omega
      rw [hg] at h
      simp only [Option.map_some', Option.some_bind] at h
      rw [if_neg (by simp)] at h
      cases hg2 : get_usize_from_codebook st.cb [st.cand.getLastD 0] with
      | none =>
        rw [hg2] at h
        exact absurd h (by simp)
      | some c2 =>
        rw [hg2] at h
        simp only [Option.map_some', Option.some.injEq] at h
        rw [← h]
        simp only [List.length_append, List.length_singleton]
        omega
  · rw [if_neg hlen] at h
    simp only [Option.some_bind] at h
    by_cases hc : st.cand.isEmpty
    · rw [if_pos hc] at h
      simp only [Option.some.injEq] at h
      rw [← h]
      omega
    · rw [if_neg hc] at h
      cases hg : get_usize_from_codebook st.cb st.cand with
      | none =>
        rw [hg] at h
        exact absurd h (by simp)
      | some c =>
        have hK1 : 1 ≤ st.cand.length := by
          cases hcnd : st.cand with
          | nil => rw [hcnd] at hc; simp at hc
          | cons a l => simp
        rw [hg] at h
        simp only [Option.map_some', Option.some.injEq] at h
        rw [← h]
        simp only [List.length_append, List.length_singleton]
        omega

theorem push_to_compressed_ids_extends (l : List Nat) (id maxOut : Nat) :
    ∃ t, push_to_compressed_ids l id maxOut = l ++ t := by
  unfold push_to_compressed_ids
  by_cases h : l.length < maxOut
  · exact ⟨[id], by rw [if_pos h]⟩
  · exact ⟨[], by rw [if_neg h, List.append_nil]⟩

theorem push_to_compressed_ids_length {l : List Nat} {maxOut : Nat} (id : Nat)
    (h : l.length ≤ maxOut) : (push_to_compressed_ids l id maxOut).length ≤ maxOut := by
  unfold push_to_compressed_ids
  by_cases hlt : l.length < maxOut
  · rw [if_pos hlt]
    simp only [List.length_append, List.length_singleton]
    omega
  · rw [if_neg hlt]
    exact h

theorem push_to_compressed_ids_full (l : List Nat) (id maxOut : Nat)
    (h : maxOut ≤ l.length) : push_to_compressed_ids l id maxOut = l := by
  unfold push_to_compressed_ids
  rw [if_neg (by omega)]

theorem mainStep_compressed {ids : List Nat} {offset vocab maxCb maxSub maxOut : Nat}
    {disabled : List Nat} {i : Nat} {st st' : MergeState}
    (h : mainStep ids offset vocab maxCb maxSub maxOut disabled i st = some st') :
    (∃ t, st'.compressed = st.compressed ++ t) ∧
      (st.compressed.length ≤ maxOut → st'.compressed.length ≤ maxOut) := by
  simp only [mainStep] at h
  cases hid : ids.get? (offset + i) with
  | none =>
    rw [hid] at h
    exact absurd h (by simp)
  | some id =>
    rw [hid] at h
    dsimp only at h
    by_cases hdis : disabled.contains id
    · rw [if_pos hdis] at h
      by_cases hc : st.cand.isEmpty
      · rw [if_pos hc] at h
        simp only [Option.some.injEq] at h
        rw [← h]
        constructor
        · exact push_to_compressed_ids_extends st.compressed id maxOut
        · exact fun hl => push_to_compressed_ids_length id hl
      · rw [if_neg hc] at h
        cases hg : get_usize_from_codebook st.cb st.cand with
        | none =>
          rw [hg] at h
          exact absurd h (by simp)
        | some c =>
          rw [hg] at h
          simp only [Option.map_some', Option.some.injEq] at h
          rw [← h]
          constructor
          · obtain ⟨t1, ht1⟩ := push_to_compressed_ids_extends st.compressed c maxOut
            obtain ⟨t2, ht2⟩ :=
              push_to_compressed_ids_extends (push_to_compressed_ids st.compressed c maxOut)
                id maxOut
            exact ⟨t1 ++ t2, by rw [ht2, ht1, List.append_assoc]⟩
          · exact fun hl =>
              push_to_compressed_ids_length id (push_to_compressed_ids_length c hl)
    · rw [if_neg hdis] at h
      by_cases hcont : codebook_contains st.cb (st.cand ++ [id]) vocab = true
      · rw [if_pos hcont] at h
        by_cases hlen : (st.cand ++ [id]).length = maxSub
        · simp only [hlen, if_pos] at h
          cases hg2 : get_usize_from_codebook st.cb (st.cand ++ [id]) with
          | none => rw [hg2] at h; exact absurd h (by simp)
          | some c2 =>
            rw [hg2] at h
            simp only [Option.map_some', Option.some.injEq] at h
            rw [← h]
            constructor
            · exact push_to_compressed_ids_extends st.compressed c2 maxOut
            · exact fun hl => push_to_compressed_ids_length c2 hl
        · simp only [hlen, if_neg, if_false] at h
          simp only [Option.some.injEq] at h
          rw [← h]
          exact ⟨⟨[], by simp⟩, fun hl => hl⟩
      · rw [if_neg hcont] at h
        rw [List.dropLast_concat] at h
        cases hg : get_usize_from_codebook
            (if st.nextId < vocab + maxCb
             then (st.cb ++ [(st.cand ++ [id], st.nextId)], st.nextId + 1)
             else (st.cb, st.nextId)).1 st.cand with
        | none => rw [hg] at h; exact absurd h (by simp)
        | some c =>
          rw [hg] at h
          simp only [Option.map_some'] at h
          by_cases hlen : ([id] : List Nat).length = maxSub
          · simp only [hlen, if_pos] at h
            cases hg2 : get_usize_from_codebook
                (if st.nextId < vocab + maxCb
                 then (st.cb ++ [(st.cand ++ [id], st.nextId)], st.nextId + 1)
                 else (st.cb, st.nextId)).1 [id] with
            | none => rw [hg2] at h; exact absurd h (by simp)
            | some c2 =>
              rw [hg2] at h
              simp only [Option.map_some', Option.some.injEq] at h
              rw [← h]
              constructor
              · obtain ⟨t1, ht1⟩ := push_to_compressed_ids_extends st.compressed c maxOut
                obtain ⟨t2, ht2⟩ :=
                  push_to_compressed_ids_extends
                    (push_to_compressed_ids st.compressed c maxOut) c2 maxOut
                exact ⟨t1 ++ t2, by rw [ht2, ht1, List.append_assoc]⟩
              · exact fun hl =>
                  push_to_compressed_ids_length c2 (push_to_compressed_ids_length c hl)
          · simp only [hlen, if_neg, if_false] at h
            simp only [Option.some.injEq] at h
            rw [← h]
            constructor
            · exact push_to_compressed_ids_extends st.compressed c maxOut
            · exact fun hl => push_to_compressed_ids_length c hl

theorem mainLoop_ok_compressed {ids : List Nat}
    {offset numTokens vocab maxCb maxSub maxOut : Nat} {disabled : List Nat} :
    ∀ (fuel i : Nat) (st : MergeState) (p : Nat × MergeState),
      mainLoop fuel ids offset numTokens vocab maxCb maxSub maxOut disabled i st
        = Run.ok p →
      (∃ t, p.2.compressed = st.compressed ++ t) ∧
        (st.compressed.length ≤ maxOut → p.2.compressed.length ≤ maxOut) := by
  intro fuel
  induction fuel with
  | zero =>
    intro i st p h
    simp [mainLoop] at h
  | succ n ih =>
    intro i st p h
    rw [mainLoop] at h
    by_cases hg : offset + i < numTokens ∧ st.compressed.length < maxOut
    · rw [if_pos hg] at h
      cases hstep : mainStep ids offset vocab maxCb maxSub maxOut disabled i st with
      | none =>
        rw [hstep] at h
        exact absurd h (by simp)
      | some st1 =>
        rw [hstep] at h
        obtain ⟨hext1, hlen1⟩ := mainStep_compressed hstep
        obtain ⟨hext2, hlen2⟩ := ih (i + 1) st1 p h
        constructor
        · obtain ⟨t1, ht1⟩ := hext1
          obtain ⟨t2, ht2⟩ := hext2
          exact ⟨t1 ++ t2, by rw [ht2, ht1, List.append_assoc]⟩
        · exact fun hl => hlen2 (hlen1 hl)
    · rw [if_neg hg] at h
      have hp : p = (i, st) := by simpa [eq_comm] using h
      rw [hp]
      exact ⟨⟨[], by simp⟩, fun hl => hl⟩

theorem mainFinish_compressed {maxSub maxOut : Nat} {st st2 : MergeState}
    (h : mainFinish maxSub maxOut st = some st2) :
    (∃ t, st2.compressed = st.compressed ++ t) ∧
      (st.compressed.length ≤ maxOut → st2.compressed.length ≤ maxOut) := by
  simp only [mainFinish] at h
  by_cases hlen : maxSub < st.cand.length
  · rw [if_pos hlen] at h
    cases hg : get_usize_from_codebook st.cb st.cand.dropLast with
    | none =>
      rw [hg] at h
      exact absurd h (by simp)
    | some c =>
      rw [hg] at h
      simp only [Option.map_some', Option.some_bind] at h
      rw [if_neg (by simp)] at h
      cases hg2 : get_usize_from_codebook st.cb [st.cand.getLastD 0] with
      | none =>
        rw [hg2] at h
        exact absurd h (by simp)
      | some c2 =>
        rw [hg2] at h
        simp only [Option.map_some', Option.some.injEq] at h
        rw [← h]
        constructor
        · obtain ⟨t1, ht1⟩ := push_to_compressed_ids_extends st.compressed c maxOut
          obtain ⟨t2, ht2⟩ :=
            push_to_compressed_ids_extends (push_to_compressed_ids st.compressed c maxOut)
              c2 maxOut
          exact ⟨t1 ++ t2, by rw [ht2, ht1, List.append_assoc]⟩
        · exact fun hl =>
            push_to_compressed_ids_length c2 (push_to_compressed_ids_length c hl)
  · rw [if_neg hlen] at h
    simp only [Option.some_bind] at h
    by_cases hc : st.cand.isEmpty
    · rw [if_pos hc] at h
      simp only [Option.some.injEq] at h
      rw [← h]
      exact ⟨⟨[], by simp⟩, fun hl => hl⟩
    · rw [if_neg hc] at h
      cases hg : get_usize_from_codebook st.cb st.cand with
      | none =>
        rw [hg] at h
        exact absurd h (by simp)
      | some c =>
        rw [hg] at h
        simp only [Option.map_some', Option.some.injEq] at h
        rw [← h]
        constructor
        · exact push_to_compressed_ids_extends st.compressed c maxOut
        · exact fun hl => push_to_compressed_ids_length c hl

/-- C5: output-length cap.  (1) lib.rs: every normal compress run emits at
most `max_out_seq_length` IDs (emitted-plus-buffered never exceeds the
consumed count, which the loop caps at `max_out_seq_length`).
(2) main.rs: every normal run with a positive cap emits at most
`max_out_seq_length` IDs (the loop stops once the emitted count reaches the
cap, all pushes being capped).  (3) A push attempted once the cap is
reached is dropped, not buffered (`push_to_compressed_ids`). -/
theorem c5_output_length_cap :
    (∀ (fuel : Nat) (ids : List Nat) (vocab maxCb maxSub maxOut eot : Nat)
       (disabled : List Nat) (r : LibResult),
       libCompressWith fuel ids vocab maxCb maxSub maxOut eot disabled = Run.ok r →
       r.compressed.length ≤ maxOut)
    ∧ (∀ (ids : List Nat) (offset numTokens vocab maxCb maxSub maxOut eot : Nat)
        (disabled : List Nat) (r : MainResult),
        0 < maxOut →
        mainCompress ids offset numTokens vocab maxCb maxSub maxOut eot disabled = Run.ok r →
        r.compressed.length ≤ maxOut)
    ∧ (∀ (l : List Nat) (id maxOut : Nat), maxOut ≤ l.length →
        push_to_compressed_ids l id maxOut = l) := by
  refine ⟨?_, ?_, push_to_compressed_ids_full⟩
  · intro fuel ids vocab maxCb maxSub maxOut eot disabled r h
    simp only [libCompressWith] at h
    cases hloop : libLoop fuel ids vocab maxCb maxSub maxOut disabled 0 (startState vocab) with
    | crash => rw [hloop] at h; exact absurd h (by simp)
    | fuelOut => rw [hloop] at h; exact absurd h (by simp)
    | ok p =>
      rw [hloop] at h
      obtain ⟨i, st⟩ := p
      dsimp only at h
      cases hfin : libFinish maxSub st with
      | none => rw [hfin] at h; exact absurd h (by simp)
      | some st2 =>
        rw [hfin] at h
        simp only [Run.ok.injEq] at h
        have hstart : CountInv maxOut 0 (startState vocab) :=
          ⟨by simp [startState], Nat.zero_le maxOut, by simp [startState]⟩
        have hinv := libLoop_ok_CountInv fuel 0 (startState vocab) (i, st) hloop hstart
        obtain ⟨hck, hile, hkeys⟩ := hinv
        dsimp only at hck hile hkeys
        have hfc := libFinish_count hfin hkeys
        have hrc : r.compressed = st2.compressed := by rw [← h]
        rw [hrc]
        omega
  · intro ids offset numTokens vocab maxCb maxSub maxOut eot disabled r hpos h
    simp only [mainCompress] at h
    cases hfirst : ids.get? offset with
    | none => rw [hfirst] at h; exact absurd h (by simp)
    | some first =>
      rw [hfirst] at h
      dsimp only at h
      cases hloop : mainLoop (numTokens + 1) ids offset numTokens vocab maxCb maxSub maxOut
          disabled 0 { startState vocab with
            compressed := if first ≠ eot then [eot] else [] } with
      | crash => rw [hloop] at h; exact absurd h (by simp)
      | fuelOut => rw [hloop] at h; exact absurd h (by simp)
      | ok p =>
        rw [hloop] at h
        obtain ⟨i, st⟩ := p
        dsimp only at h
        cases hfin : mainFinish maxSub maxOut st with
        | none => rw [hfin] at h; exact absurd h (by simp)
        | some st2 =>
          rw [hfin] at h
          simp only [Run.ok.injEq] at h
          have hinit : ({ startState vocab with
              compressed := if first ≠ eot then [eot] else [] } : MergeState).compressed.length
              ≤ maxOut := by
            by_cases hfe : first = eot <;> simp [hfe] <;> omega
          have hl1 := (mainLoop_ok_compressed (numTokens + 1) 0 _ (i, st) hloop).2 hinit
          have hl2 := (mainFinish_compressed hfin).2 hl1
          have hrc : r.compressed = st2.compressed := by rw [← h]
          rw [hrc]
          exact hl2

/-- Witness for C5 at concrete inputs: the spec example for lib.rs, a
five-token window for main.rs, and a full buffer for the drop rule. -/
theorem c5_output_length_cap_witness :
    (∃ r, libCompressWith 11 [5,6,5,6,5,6,5,6,5,6] 100 4 3 10 0 [] = Run.ok r ∧
       r.compressed.length ≤ 10)
    ∧ (∃ r, mainCompress [5,6,0,5,6] 0 5 100 4 3 10 0 [0] = Run.ok r ∧
       r.compressed.length ≤ 10)
    ∧ (2 ≤ ([1, 2] : List Nat).length ∧ push_to_compressed_ids [1, 2] 9 2 = [1, 2]) := by
  refine ⟨⟨_, rfl, ?_⟩, ⟨_, rfl, ?_⟩, by decide, ?_⟩
  · exact c5_output_length_cap.1 11 [5,6,5,6,5,6,5,6,5,6] 100 4 3 10 0 [] _ rfl
  · exact c5_output_length_cap.2.1 [5,6,0,5,6] 0 5 100 4 3 10 0 [0] _ (by decide) rfl
  · exact c5_output_length_cap.2.2 [1, 2] 9 2 (by decide)

theorem libLoop_no_crash {ids : List Nat} {vocab maxCb maxSub maxOut : Nat}
    {disabled : List Nat}
    (hval : ∀ x ∈ ids, disabled.contains x = false → x < vocab)
    (hms : 1 ≤ maxSub) :
    ∀ (fuel i : Nat) (st : MergeState), SafeInv vocab maxSub st →
      libLoop fuel ids vocab maxCb maxSub maxOut disabled i st ≠ Run.crash ∧
      (∀ p, libLoop fuel ids vocab maxCb maxSub maxOut disabled i st = Run.ok p →
        SafeInv vocab maxSub p.2) := by
  intro fuel
  induction fuel with
  | zero =>
    intro i st hinv
    exact ⟨by simp [libLoop], fun p hp => absurd hp (by simp [libLoop])⟩
  | succ n ih =>
    intro i st hinv
    by_cases hg : i < ids.length ∧ i < maxOut
    · have hid : disabled.contains (ids.getD i 0) = false → ids.getD i 0 < vocab :=
        hval (ids.getD i 0) (getD_mem_of_lt hg.1)
      have hsome := @libStep_isSome ids vocab maxCb maxSub disabled i st hid hinv.2
      obtain ⟨pr, hpr⟩ := Option.isSome_iff_exists.mp hsome
      obtain ⟨j, st1⟩ := pr
      have hnext := SafeInv_step hpr hms hid hinv
      constructor
      · intro hcr
        rw [libLoop, if_pos hg, hpr] at hcr
        exact (ih j st1 hnext).1 hcr
      · intro p hp
        rw [libLoop, if_pos hg, hpr] at hp
        exact (ih j st1 hnext).2 p hp
    · constructor
      · intro hcr
        rw [libLoop, if_neg hg] at hcr
        exact absurd hcr (by simp)
      · intro p hp
        rw [libLoop, if_neg hg] at hp
        have : p = (i, st) := by simpa [eq_comm] using hp
        rw [this]
        exact hinv

theorem libFinish_isSome {vocab maxSub : Nat} {st : MergeState}
    (hinv : SafeInv vocab maxSub st) : (libFinish maxSub st).isSome = true := by
  obtain ⟨hlen, hsafe⟩ := hinv
  simp only [libFinish]
  rw [if_neg (by omega)]
  simp only [Option.some_bind]
  by_cases hc : st.cand.isEmpty
  · rw [if_pos hc]
    rfl
  · rw [if_neg hc]
    have hcont : codebook_contains st.cb st.cand vocab = true := by
      rcases hsafe with hnil | hx
      · exact absurd (by rw [hnil]; rfl) hc
      · exact hx
    obtain ⟨c, hcv⟩ := Option.isSome_iff_exists.mp (get_usize_isSome_of_contains hcont)
    rw [hcv]
    rfl

/-- C4: under the precondition that every input ID outside the disabled set
is below `initial_vocab_size` (and a positive `max_subtokens`), no codebook
lookup performed by lib.rs compress ever fails: every flush finds its
phrase registered, so the run never reaches the panicking `unwrap` branch
of `get_usize_from_codebook` (modelled as `Run.crash`). -/
theorem c4_flush_lookup_never_fails :
    ∀ (fuel : Nat) (ids : List Nat) (vocab maxCb maxSub max_out eot : Nat)
      (disabled : List Nat),
      (∀ x ∈ ids, disabled.contains x = false → x < vocab) → 1 ≤ maxSub →
      libCompressWith fuel ids vocab maxCb maxSub max_out eot disabled ≠ Run.crash := by
  intro fuel ids vocab maxCb maxSub maxOut eot disabled hval hms h
  simp only [libCompressWith] at h
  have hstart : SafeInv vocab maxSub (startState vocab) := ⟨by simpa using hms, Or.inl rfl⟩
  have hloopf := @libLoop_no_crash ids vocab maxCb maxSub maxOut disabled hval hms
    fuel 0 (startState vocab) hstart
  cases hloop : libLoop fuel ids vocab maxCb maxSub maxOut disabled 0 (startState vocab) with
  | crash => exact hloopf.1 hloop
  | fuelOut =>
    rw [hloop] at h
    exact absurd h (by simp)
  | ok p =>
    rw [hloop] at h
    obtain ⟨i, st⟩ := p
    dsimp only at h
    have hsafe : SafeInv vocab maxSub st := hloopf.2 (i, st) hloop
    obtain ⟨st2, hst2⟩ := Option.isSome_iff_exists.mp (libFinish_isSome hsafe)
    rw [hst2] at h
    exact absurd h (by simp)

/-- Witness for C4 at a concrete input: all input IDs are raw and none is
disabled. -/
theorem c4_flush_lookup_never_fails_witness :
    (∀ x ∈ ([5, 6, 5, 6, 5] : List Nat), ([] : List Nat).contains x = false → x < 100) ∧
    1 ≤ 3 ∧
    libCompressWith 6 [5, 6, 5, 6, 5] 100 4 3 10 0 [] ≠ Run.crash :=
  ⟨by decide, by decide,
    c4_flush_lookup_never_fails 6 [5, 6, 5, 6, 5] 100 4 3 10 0 [] (by decide) (by decide)⟩

/-- C9: window alignment in the file-orchestrated (main.rs) variant.  For
every normal run: if the first raw ID of the window is not the boundary
marker, one boundary marker is pushed before any other output (lines
88-90), so the compressed window begins with the marker; and when the first
raw ID IS the boundary marker (which is disabled in the orchestration) the
window also begins with the marker, because the disabled branch passes it
through first. -/
theorem c9_window_alignment :
    ∀ (ids : List Nat) (offset numTokens vocab maxCb maxSub maxOut eot : Nat)
      (disabled : List Nat) (r : MainResult),
      mainCompress ids offset numTokens vocab maxCb maxSub maxOut eot disabled = Run.ok r →
      (∀ v, ids.get? offset = some v → v ≠ eot → r.compressed.head? = some eot) ∧
      (ids.get? offset = some eot → disabled.contains eot = true → 0 < maxOut →
        offset < numTokens → r.compressed.head? = some eot) := by
  intro ids offset numTokens vocab maxCb maxSub maxOut eot disabled r h
  simp only [mainCompress] at h
  cases hfirst : ids.get? offset with
  | none =>
    rw [hfirst] at h
    exact absurd h (by simp)
  | some first =>
    rw [hfirst] at h
    dsimp only at h
    cases hloop : mainLoop (numTokens + 1) ids offset numTokens vocab maxCb maxSub maxOut
        disabled 0 { startState vocab with
          compressed := if first ≠ eot then [eot] else [] } with
    | crash => rw [hloop] at h; exact absurd h (by simp)
    | fuelOut => rw [hloop] at h; exact absurd h (by simp)
    | ok p =>
      rw [hloop] at h
      obtain ⟨i, st⟩ := p
      dsimp only at h
      cases hfin : mainFinish maxSub maxOut st with
      | none => rw [hfin] at h; exact absurd h (by simp)
      | some st2 =>
        rw [hfin] at h
        simp only [Run.ok.injEq] at h
        have hrc : r.compressed = st2.compressed := by rw [← h]
        constructor
        · intro v hv hvne
          have hvf : v = first := (Option.some.inj hv).symm
          have hne : first ≠ eot := by rw [← hvf]; exact hvne
          have hinit : ({ startState vocab with
              compressed := if first ≠ eot then [eot] else [] } : MergeState).compressed
              = [eot] := by simp [hne]
          obtain ⟨t1, ht1⟩ := (mainLoop_ok_compressed (numTokens + 1) 0 _ (i, st) hloop).1
          obtain ⟨t2, ht2⟩ := (mainFinish_compressed hfin).1
          rw [hrc, ht2, ht1, hinit]
          rfl
        · intro heq hdis hpos hoff
          have hfe : first = eot := Option.some.inj heq
          subst hfe
          have hinit : ({ startState vocab with
              compressed := if first ≠ first then [first] else [] } : MergeState).compressed
              = [] := by simp
          rw [mainLoop] at hloop
          have hguard : offset + 0 < numTokens ∧
              ({ startState vocab with
                 compressed := if first ≠ first then [first] else [] } :
                MergeState).compressed.length < maxOut :=
            ⟨by simpa using hoff, by rw [hinit]; simpa using hpos⟩
          rw [if_pos hguard] at hloop
          have hstep : mainStep ids offset vocab maxCb maxSub maxOut disabled 0
              ({ startState vocab with
                 compressed := if first ≠ first then [first] else [] }) =
              some ⟨[first], [], vocab, []⟩ := by
            simp only [mainStep]
            rw [show offset + 0 = offset from rfl, hfirst]
            dsimp only
            rw [if_pos hdis]
            have hc : ({ startState vocab with
                compressed := if first ≠ first then [first] else [] } :
                  MergeState).cand.isEmpty = true := rfl
            rw [if_pos hc]
            simp [push_to_compressed_ids, startState, hpos]
          rw [hstep] at hloop
          obtain ⟨t1, ht1⟩ :=
            (mainLoop_ok_compressed numTokens (0 + 1) _ (i, st) hloop).1
          obtain ⟨t2, ht2⟩ := (mainFinish_compressed hfin).1
          rw [hrc, ht2, ht1]
          rfl

/-- Witness for C9 at concrete inputs: a window starting with a raw ID
(forced marker) and a window starting with the marker itself. -/
theorem c9_window_alignment_witness :
    (∃ r, mainCompress [5, 6, 0, 5, 6] 0 5 100 4 3 10 0 [0] = Run.ok r ∧
       r.compressed.head? = some 0) ∧
    (∃ r, mainCompress [0, 5, 6] 0 3 100 4 3 10 0 [0] = Run.ok r ∧
       r.compressed.head? = some 0) := by
  constructor
  · exact ⟨_, rfl, (c9_window_alignment [5, 6, 0, 5, 6] 0 5 100 4 3 10 0 [0] _ rfl).1 5
      rfl (by decide)⟩
  · exact ⟨_, rfl, (c9_window_alignment [0, 5, 6] 0 3 100 4 3 10 0 [0] _ rfl).2
      rfl (by decide) (by decide) (by decide)⟩

theorem insertByVal_eq_cons {e : Phrase × Nat} {l : Codebook}
    (h : ∀ f ∈ l, e.2 ≤ f.2) : insertByVal e l = e :: l := by
  cases l with
  | nil => rfl
  | cons f rest =>
    simp only [insertByVal]
    rw [if_pos (h f (List.mem_cons_self _ _))]

theorem sortByVal_eq_self {l : Codebook}
    (h : List.Pairwise (fun a b : Phrase × Nat => a.2 < b.2) l) : sortByVal l = l := by
  induction l with
  | nil => rfl
  | cons e rest ih =>
    rw [List.pairwise_cons] at h
    simp only [sortByVal]
    rw [ih h.2, insertByVal_eq_cons (fun f hf => Nat.le_of_lt (h.1 f hf))]

theorem pairwise_of_values_range {cb : Codebook} {vocab : Nat}
    (hWF : cb.map Prod.snd = List.range' vocab cb.length) :
    List.Pairwise (fun a b : Phrase × Nat => a.2 < b.2) cb := by
  have h := List.pairwise_lt_range' vocab cb.length
  rw [← hWF] at h
  exact List.pairwise_map.mp h

theorem padResize_length (l : List Nat) (n pad : Nat) : (padResize l n pad).length = n := by
  simp only [padResize, List.length_append, List.length_take, List.length_replicate]
  omega

theorem padResize_of_le {l : List Nat} {n : Nat} (pad : Nat) (h : l.length ≤ n) :
    padResize l n pad = l ++ List.replicate (n - l.length) pad := by
  simp only [padResize, List.take_of_length_le h]

theorem libLoop_ok_KeyLenInv {ids : List Nat} {vocab maxCb maxSub maxOut : Nat}
    {disabled : List Nat} (hms : 1 ≤ maxSub) :
    ∀ (fuel i : Nat) (st : MergeState) (p : Nat × MergeState),
      libLoop fuel ids vocab maxCb maxSub maxOut disabled i st = Run.ok p →
      KeyLenInv maxSub st → KeyLenInv maxSub p.2 := by
  intro fuel
  induction fuel with
  | zero =>
    intro i st p h
    simp [libLoop] at h
  | succ n ih =>
    intro i st p h hinv
    by_cases hg : i < ids.length ∧ i < maxOut
    · rw [libLoop, if_pos hg] at h
      cases hstep : libStep ids vocab maxCb maxSub disabled i st with
      | none =>
        rw [hstep] at h
        exact absurd h (by simp)
      | some pr =>
        rw [hstep] at h
        obtain ⟨j, st1⟩ := pr
        exact ih j st1 p h (KeyLenInv_step hstep hms hinv)
    · rw [libLoop, if_neg hg] at h
      have hp : p = (i, st) := by simpa [eq_comm] using h
      rw [hp]
      exact hinv

/-- C7: codebook serialization shape for lib.rs.  For every normal run
(with positive `max_subtokens`): the serialized table is exactly the
registered phrases in ascending order of assigned substitute ID, each
right-padded with the boundary marker to exactly `max_subtokens` values,
followed by all-boundary-marker padding rows up to exactly
`max_codebook_size` rows of `max_subtokens` values each; and the main.rs
flattened table always holds exactly
`max_codebook_size * max_subtokens` values. -/
theorem c7_codebook_serialization :
    (∀ (fuel : Nat) (ids : List Nat) (vocab maxCb maxSub maxOut eot : Nat)
       (disabled : List Nat) (r : LibResult),
       1 ≤ maxSub →
       libCompressWith fuel ids vocab maxCb maxSub maxOut eot disabled = Run.ok r →
       r.codebookVec
           = r.entries.map (fun kv => kv.1 ++ List.replicate (maxSub - kv.1.length) eot)
             ++ List.replicate (maxCb - r.entries.length) (List.replicate maxSub eot) ∧
         r.entries.map Prod.snd = List.range' vocab r.entries.length ∧
         r.codebookVec.length = maxCb ∧
         (∀ row ∈ r.codebookVec, row.length = maxSub))
    ∧ (∀ (cb : Codebook) (maxCb maxSub eot : Nat),
        (serializeCodebookFlat cb maxCb maxSub eot).length = maxCb * maxSub) := by
  constructor
  · intro fuel ids vocab maxCb maxSub maxOut eot disabled r hms h
    simp only [libCompressWith] at h
    cases hloop : libLoop fuel ids vocab maxCb maxSub maxOut disabled 0 (startState vocab) with
    | crash => rw [hloop] at h; exact absurd h (by simp)
    | fuelOut => rw [hloop] at h; exact absurd h (by simp)
    | ok p =>
      rw [hloop] at h
      obtain ⟨i, st⟩ := p
      dsimp only at h
      cases hfin : libFinish maxSub st with
      | none => rw [hfin] at h; exact absurd h (by simp)
      | some st2 =>
        rw [hfin] at h
        simp only [Run.ok.injEq] at h
        have hcbinv : CBInv vocab maxCb st :=
          libLoop_ok_CBInv fuel 0 (startState vocab) (i, st) hloop ⟨rfl, rfl, Nat.zero_le _⟩
        have hklinv : KeyLenInv maxSub st :=
          libLoop_ok_KeyLenInv hms fuel 0 (startState vocab) (i, st) hloop
            ⟨by simp [startState], by simpa [startState] using hms⟩
        have hcb2 : st2.cb = st.cb := (libFinish_cb hfin).1
        have hre : r.entries = st.cb := by rw [← h]; exact hcb2
        have hrv : r.codebookVec = serializeCodebook st.cb maxCb maxSub eot := by
          rw [← h]
          dsimp only
          rw [hcb2]
        have hsort : sortByVal st.cb = st.cb :=
          sortByVal_eq_self (pairwise_of_values_range hcbinv.1)
        have hrows : (sortByVal st.cb).map (fun kv => padResize kv.1 maxSub eot)
            = st.cb.map (fun kv => kv.1 ++ List.replicate (maxSub - kv.1.length) eot) := by
          rw [hsort]
          apply List.map_congr_left
          intro kv hkv
          exact padResize_of_le eot (hklinv.1 kv hkv)
        have hlenrows : (st.cb.map
            (fun kv => kv.1 ++ List.replicate (maxSub - kv.1.length) eot)).length
            = st.cb.length := by simp
        have hser : serializeCodebook st.cb maxCb maxSub eot
            = st.cb.map (fun kv => kv.1 ++ List.replicate (maxSub - kv.1.length) eot)
              ++ List.replicate (maxCb - st.cb.length) (List.replicate maxSub eot) := by
          simp only [serializeCodebook]
          rw [hrows, hlenrows]
          congr 1
          apply List.take_of_length_le
          rw [hlenrows]
          exact hcbinv.2.2
        refine ⟨by rw [hrv, hser, hre], by rw [hre]; exact hcbinv.1, ?_, ?_⟩
        · rw [hrv, hser]
          simp only [List.length_append, List.length_map, List.length_replicate]
          have := hcbinv.2.2
          omega
        · intro row hrow
          rw [hrv, hser] at hrow
          rcases List.mem_append.mp hrow with hm | hm
          · obtain ⟨kv, hkv, hkveq⟩ := List.mem_map.mp hm
            rw [← hkveq]
            simp only [List.length_append, List.length_replicate]
            have := hklinv.1 kv hkv
            omega
          · rw [List.eq_of_mem_replicate hm]
            exact List.length_replicate maxSub eot
  · intro cb maxCb maxSub eot
    exact padResize_length _ _ _

/-- Witness for C7 at a concrete input: the spec example window and a
concrete flat table. -/
theorem c7_codebook_serialization_witness :
    (∃ r, libCompressWith 11 [5,6,5,6,5,6,5,6,5,6] 100 4 3 10 0 [] = Run.ok r ∧
       (r.codebookVec
           = r.entries.map (fun kv => kv.1 ++ List.replicate (3 - kv.1.length) 0)
             ++ List.replicate (4 - r.entries.length) (List.replicate 3 0) ∧
         r.entries.map Prod.snd = List.range' 100 r.entries.length ∧
         r.codebookVec.length = 4 ∧
         (∀ row ∈ r.codebookVec, row.length = 3)))
    ∧ (serializeCodebookFlat [([5, 6], 100)] 4 3 0).length = 4 * 3 := by
  constructor
  · exact ⟨_, rfl,
      c7_codebook_serialization.1 11 [5,6,5,6,5,6,5,6,5,6] 100 4 3 10 0 [] _ (by decide) rfl⟩
  · exact c7_codebook_serialization.2 [([5, 6], 100)] 4 3 0

theorem take_succ_getD {ids : List Nat} {i : Nat} (h : i < ids.length) :
    ids.take (i + 1) = ids.take i ++ [ids.getD i 0] := by
  rw [List.take_succ]
  congr 1
  rw [List.getD_eq_getElem ids 0 h]
  rw [List.getElem?_eq_getElem h]
  rfl

theorem dropWhile_of_not {p : Nat → Bool} {l : List Nat} (h : ∀ x ∈ l, ¬ p x = true) :
    l.dropWhile p = l := by
  cases l with
  | nil => rfl
  | cons a rest =>
    rw [List.dropWhile_cons]
    rw [if_neg (h a (List.mem_cons_self _ _))]

theorem stripTrailing_pad {key : List Nat} {eot : Nat} (m : Nat)
    (hnoeot : ∀ x ∈ key, x ≠ eot) :
    stripTrailing eot (key ++ List.replicate m eot) = key := by
  unfold stripTrailing
  rw [List.reverse_append, List.reverse_replicate]
  rw [List.dropWhile_append]
  have hrep : (List.replicate m eot).dropWhile (fun x => x = eot) = [] := by
    induction m with
    | zero => rfl
    | succ k ih =>
      rw [List.replicate_succ, List.dropWhile_cons]
      rw [if_pos (by simp)]
      exact ih
  rw [hrep]
  rw [if_pos (by rfl)]
  rw [dropWhile_of_not (fun x hx => by
    simp only [decide_eq_true_eq]
    exact hnoeot x (List.mem_reverse.mp hx))]
  exact List.reverse_reverse key

theorem values_getElem {cb : Codebook} {vocab : Nat}
    (hWF : cb.map Prod.snd = List.range' vocab cb.length) {j : Nat} (hj : j < cb.length) :
    (cb[j]).2 = vocab + j := by
  have hjm : j < (cb.map Prod.snd).length := by simpa using hj
  have hjr : j < (List.range' vocab cb.length).length := by simpa using hj
  have hmap : (cb.map Prod.snd)[j] = (cb[j]).2 := List.getElem_map Prod.snd
  have hr : (cb.map Prod.snd)[j] = (List.range' vocab cb.length)[j] :=
    List.getElem_of_eq hWF hjm
  rw [← hmap, hr]
  simpa using List.getElem_range' j hjr

theorem decodeSeq_eq_decodeM {cb : Codebook} {vocab maxCb maxSub eot : Nat} {out : List Nat}
    (hWF : cb.map Prod.snd = List.range' vocab cb.length)
    (hlen : cb.length ≤ maxCb)
    (hkeys : ∀ kv ∈ cb, kv.1 ≠ [] ∧ kv.1.length ≤ maxSub ∧
      ∀ x ∈ kv.1, x < vocab ∧ x ≠ eot)
    (hout : ∀ c ∈ out, c < vocab + cb.length) :
    decodeSeq (serializeCodebook cb maxCb maxSub eot) vocab eot out
      = decodeM vocab cb out := by
  unfold decodeSeq decodeM
  congr 1
  apply List.map_congr_left
  intro c hc
  unfold decodeId
  by_cases hraw : c < vocab
  · rw [if_pos hraw]
    simp [hraw]
  · rw [if_neg hraw]
    have hcb : c < vocab + cb.length := hout c hc
    have hj : c - vocab < cb.length := by omega
    have hval : (cb[c - vocab]).2 = c := by
      rw [values_getElem hWF hj]
      omega
    have hmementry : ((cb[c - vocab]).1, c) ∈ cb := by
      have hm : ((cb[c - vocab]).1, (cb[c - vocab]).2) ∈ cb := List.getElem_mem hj
      rw [hval] at hm
      exact hm
    have hfind := find?_value_eq hWF hmementry
    rw [hfind]
    simp only [Option.map_some', Option.getD_some, hraw, if_false]
    have hsort : sortByVal cb = cb := sortByVal_eq_self (pairwise_of_values_range hWF)
    have hrows : serializeCodebook cb maxCb maxSub eot
        = cb.map (fun kv => padResize kv.1 maxSub eot)
          ++ List.replicate (maxCb - cb.length) (List.replicate maxSub eot) := by
      simp only [serializeCodebook, hsort, List.length_map]
      congr 1
      apply List.take_of_length_le
      simpa using hlen
    have hrow : (serializeCodebook cb maxCb maxSub eot).getD (c - vocab) []
        = padResize (cb[c - vocab]).1 maxSub eot := by
      rw [hrows]
      rw [List.getD_eq_getElem?_getD]
      rw [List.getElem?_append]
      rw [if_pos (by simpa using hj)]
      rw [List.getElem?_map]
      rw [List.getElem?_eq_getElem hj]
      rfl
    rw [hrow]
    have hkfacts := hkeys _ (List.getElem_mem hj)
    rw [padResize_of_le eot hkfacts.2.1]
    exact stripTrailing_pad _ (fun x hx => (hkfacts.2.2 x hx).2)

theorem C1Inv_step {ids : List Nat}
    {vocab maxCb maxSub maxOut eot : Nat} {disabled : List Nat} {i : Nat} {st : MergeState}
    (hg : i < ids.length ∧ i < maxOut)
    (hlt : ids.getD i 0 < vocab)
    (hneot : ids.getD i 0 ≠ eot)
    (hdis : disabled.contains (ids.getD i 0) = false)
    (hms : 1 ≤ maxSub)
    (hinv : C1Inv ids vocab maxCb maxSub maxOut eot i st) :
    ∃ st', libStep ids vocab maxCb maxSub disabled i st = some (i + 1, st') ∧
      C1Inv ids vocab maxCb maxSub maxOut eot (i + 1) st' := by
  have hsome := @libStep_isSome ids vocab maxCb maxSub disabled i st
    (fun _ => hlt) hinv.candOk
  obtain ⟨pr, hpr⟩ := Option.isSome_iff_exists.mp hsome
  obtain ⟨j, st'⟩ := pr
  have htake := take_succ_getD hg.1
  rcases libStep_spec hpr with ⟨hd, _, _, _, _, _⟩ | ⟨_, hj, st1, h1, h2⟩
  · rw [hdis] at hd
    exact absurd hd (by simp)
  · subst hj
    refine ⟨st', hpr, ?_⟩
    have hF : st1.cb.map Prod.snd = List.range' vocab st1.cb.length ∧
        st1.cb.length ≤ maxCb ∧ st1.nextId = vocab + st1.cb.length ∧
        (∀ kv ∈ st1.cb, kv.1 ≠ [] ∧ kv.1.length ≤ maxSub ∧
          ∀ x ∈ kv.1, x < vocab ∧ x ≠ eot) ∧
        (decodeM vocab st1.cb st1.compressed ++ st1.cand = ids.take (i + 1)) ∧
        (∀ c ∈ st1.compressed, c < vocab + st1.cb.length) ∧
        (∀ x ∈ st1.cand, x < vocab ∧ x ≠ eot) ∧
        st1.cand ≠ [] ∧
        codebook_contains st1.cb st1.cand vocab = true ∧
        st1.cand.length ≤ maxSub := by
      rcases h1 with ⟨hcont, rfl⟩ | ⟨hnc, cE, hgE, rfl⟩
      · refine ⟨hinv.cbVals, hinv.cbLen, hinv.nid, hinv.keys, ?_, hinv.outBound, ?_,
          by simp, hcont, ?_⟩
        · show decodeM vocab st.cb st.compressed ++ (st.cand ++ [ids.getD i 0])
            = ids.take (i + 1)
          rw [htake, ← List.append_assoc, hinv.dec]
        · intro x hx
          rcases List.mem_append.mp hx with hxK | hxid
          · exact hinv.candElems x hxK
          · rw [List.mem_singleton.mp hxid]
            exact ⟨hlt, hneot⟩
        · show (st.cand ++ [ids.getD i 0]).length ≤ maxSub
          have := hinv.candLen
          simp only [List.length_append, List.length_singleton]
          omega
      · have hKne : st.cand ≠ [] := by
          intro hnil
          rw [hnil] at hnc
          simp [codebook_contains] at hnc
          rw [List.getD_eq_getElem?_getD] at hlt
          omega
        have hcontK : codebook_contains st.cb st.cand vocab = true :=
          hinv.candOk.resolve_left hKne
        obtain ⟨cF, hgF, hbF, hdF⟩ := flush_emit hinv.cbVals hcontK hKne
        have hnewlen : (st.cand ++ [ids.getD i 0]).length ≤ maxSub := by
          have := hinv.candLen
          simp only [List.length_append, List.length_singleton]
          omega
        have hnewelems : ∀ x ∈ st.cand ++ [ids.getD i 0], x < vocab ∧ x ≠ eot := by
          intro x hx
          rcases List.mem_append.mp hx with hxK | hxid
          · exact hinv.candElems x hxK
          · rw [List.mem_singleton.mp hxid]
            exact ⟨hlt, hneot⟩
        by_cases hcap : st.nextId < vocab + maxCb
        · simp only [if_pos hcap] at hgE ⊢
          have hgF1 : get_usize_from_codebook
              (st.cb ++ [(st.cand ++ [ids.getD i 0], st.nextId)]) st.cand = some cF :=
            get_usize_append_of_some _ hgF
          have hcE : cE = cF := by
            rw [hgE] at hgF1
            exact Option.some.inj hgF1
          rw [← hcE] at hbF hdF
          have hlcb : st.cb.length < maxCb := by
            have := hinv.nid
            omega
          have hWF1 : (st.cb ++ [(st.cand ++ [ids.getD i 0], st.nextId)]).map Prod.snd
              = List.range' vocab
                  (st.cb ++ [(st.cand ++ [ids.getD i 0], st.nextId)]).length := by
            rw [List.map_append, List.length_append, hinv.cbVals, hinv.nid]
            simp only [List.map_cons, List.map_nil, List.length_cons, List.length_nil]
            rw [range'_concat_one]
          have hgrow : ∀ out : List Nat, (∀ c ∈ out, c < vocab + st.cb.length) →
              decodeM vocab (st.cb ++ [(st.cand ++ [ids.getD i 0], st.nextId)]) out
                = decodeM vocab st.cb out := by
            intro out hb
            exact decodeM_grow _ (by rw [hinv.nid]) hb
          refine ⟨hWF1, ?_, ?_, ?_, ?_, ?_, ?_, by simp, ?_, by simpa using hms⟩
          · simp only [List.length_append, List.length_cons, List.length_nil]
            omega
          · simp only [List.length_append, List.length_cons, List.length_nil]
            rw [hinv.nid]
            omega
          · intro kv hkv
            rcases List.mem_append.mp hkv with hold | hnew
            · exact hinv.keys kv hold
            · rw [List.mem_singleton.mp hnew]
              exact ⟨by simp, hnewlen, hnewelems⟩
          · show decodeM vocab (st.cb ++ [(st.cand ++ [ids.getD i 0], st.nextId)])
                (st.compressed ++ [cE]) ++ [ids.getD i 0] = ids.take (i + 1)
            rw [decodeM_append, hgrow st.compressed hinv.outBound,
              hgrow [cE] (by intro c hcm; rw [List.mem_singleton.mp hcm]; exact hbF),
              hdF, htake, hinv.dec.symm]
          · intro c hcm
            rcases List.mem_append.mp hcm with hold | hnew
            · have := hinv.outBound c hold
              simp only [List.length_append, List.length_cons, List.length_nil]
              omega
            · rw [List.mem_singleton.mp hnew]
              simp only [List.length_append, List.length_cons, List.length_nil]
              omega
          · intro x hx
            rw [List.mem_singleton.mp hx]
            exact ⟨hlt, hneot⟩
          · show codebook_contains (st.cb ++ [(st.cand ++ [ids.getD i 0], st.nextId)])
                [ids.getD i 0] vocab = true
            simpa [codebook_contains] using hlt
        · simp only [if_neg hcap] at hgE ⊢
          have hcE : cE = cF := by
            rw [hgE] at hgF
            exact Option.some.inj hgF
          rw [← hcE] at hbF hdF
          refine ⟨hinv.cbVals, hinv.cbLen, hinv.nid, hinv.keys, ?_, ?_, ?_, by simp, ?_,
            by simpa using hms⟩
          · show decodeM vocab st.cb (st.compressed ++ [cE]) ++ [ids.getD i 0]
              = ids.take (i + 1)
            rw [decodeM_append, hdF, htake, hinv.dec.symm]
          · intro c hcm
            rcases List.mem_append.mp hcm with hold | hnew
            · exact hinv.outBound c hold
            · rw [List.mem_singleton.mp hnew]
              exact hbF
          · intro x hx
            rw [List.mem_singleton.mp hx]
            exact ⟨hlt, hneot⟩
          · show codebook_contains st.cb [ids.getD i 0] vocab = true
            simpa [codebook_contains] using hlt
    obtain ⟨hWF1, hlen1, hnid1, hkeys1, hdec1, hout1, helems1, hne1, hcont1, hlenle1⟩ := hF
    rcases h2 with ⟨hlen2, c2, hg2, rfl⟩ | ⟨hlen2, rfl⟩
    · obtain ⟨c2F, hg2F, hb2F, hd2F⟩ := flush_emit hWF1 hcont1 hne1
      have hc2 : c2 = c2F := by
        rw [hg2] at hg2F
        exact Option.some.inj hg2F
      rw [← hc2] at hb2F hd2F
      refine ⟨hWF1, hlen1, hnid1, hkeys1, by simpa using hms, Or.inl rfl, by simp, ?_, ?_,
        by omega⟩
      · intro c hcm
        rcases List.mem_append.mp hcm with hold | hnew
        · exact hout1 c hold
        · rw [List.mem_singleton.mp hnew]
          exact hb2F
      · show decodeM vocab st1.cb (st1.compressed ++ [c2]) ++ ([] : List Nat)
          = ids.take (i + 1)
        rw [decodeM_append, hd2F, List.append_nil]
        exact hdec1
    · exact ⟨hWF1, hlen1, hnid1, hkeys1, by omega, Or.inr hcont1, helems1, hout1, hdec1,
        by omega⟩

theorem libLoop_complete {ids : List Nat} {vocab maxCb maxSub maxOut eot : Nat}
    {disabled : List Nat}
    (hids : ∀ x ∈ ids, x < vocab ∧ x ≠ eot ∧ disabled.contains x = false)
    (hms : 1 ≤ maxSub) :
    ∀ (fuel i : Nat) (st : MergeState),
      C1Inv ids vocab maxCb maxSub maxOut eot i st →
      min ids.length maxOut - i < fuel →
      ∃ stF, libLoop fuel ids vocab maxCb maxSub maxOut disabled i st
          = Run.ok (min ids.length maxOut, stF) ∧
        C1Inv ids vocab maxCb maxSub maxOut eot (min ids.length maxOut) stF := by
  intro fuel
  induction fuel with
  | zero =>
    intro i st hinv hf
    omega
  | succ n ih =>
    intro i st hinv hf
    by_cases hg : i < ids.length ∧ i < maxOut
    · have hx := hids (ids.getD i 0) (getD_mem_of_lt hg.1)
      obtain ⟨st', hstep, hinv'⟩ := C1Inv_step hg hx.1 hx.2.1 hx.2.2 hms hinv
      obtain ⟨stF, hloopF, hinvF⟩ := ih (i + 1) st' hinv' (by omega)
      refine ⟨stF, ?_, hinvF⟩
      rw [libLoop, if_pos hg, hstep]
      exact hloopF
    · have hieq : i = min ids.length maxOut := by
        have := hinv.iLe
        omega
      refine ⟨st, ?_, by rw [← hieq]; exact hinv⟩
      rw [libLoop, if_neg hg, hieq]

theorem libFinish_C1 {vocab maxSub : Nat} {st : MergeState} {D : List Nat}
    (hcbVals : st.cb.map Prod.snd = List.range' vocab st.cb.length)
    (hcandLen : st.cand.length < maxSub)
    (hcandOk : st.cand = [] ∨ codebook_contains st.cb st.cand vocab = true)
    (hout : ∀ c ∈ st.compressed, c < vocab + st.cb.length)
    (hdec : decodeM vocab st.cb st.compressed ++ st.cand = D) :
    ∃ st2, libFinish maxSub st = some st2 ∧ st2.cb = st.cb ∧
      decodeM vocab st2.cb st2.compressed = D ∧
      (∀ c ∈ st2.compressed, c < vocab + st2.cb.length) := by
  simp only [libFinish]
  rw [if_neg (by omega)]
  simp only [Option.some_bind]
  by_cases hc : st.cand.isEmpty
  · rw [if_pos hc]
    refine ⟨st, rfl, rfl, ?_, hout⟩
    have hnil : st.cand = [] := List.isEmpty_iff.mp hc
    rw [hnil, List.append_nil] at hdec
    exact hdec
  · rw [if_neg hc]
    have hne : st.cand ≠ [] := by
      intro hnil
      rw [hnil] at hc
      simp at hc
    have hcont : codebook_contains st.cb st.cand vocab = true := hcandOk.resolve_left hne
    obtain ⟨c, hgc, hbc, hdc⟩ := flush_emit hcbVals hcont hne
    rw [hgc]
    simp only [Option.map_some']
    refine ⟨_, rfl, rfl, ?_, ?_⟩
    · show decodeM vocab st.cb (st.compressed ++ [c]) = D
      rw [decodeM_append, hdc]
      exact hdec
    · intro x hx
      rcases List.mem_append.mp hx with hold | hnew
      · exact hout x hold
      · rw [List.mem_singleton.mp hnew]
        exact hbc

/-- C1 (amended): lossless round trip for the lib.rs compress.  For every
input slice whose token IDs are all below `initial_vocab_size`, none of
which is in the disabled set or equal to the boundary marker (and positive
`max_subtokens`), the run completes normally, and replacing each
substitute ID of the compressed output by the phrase stored for it in the
window's codebook table (trailing boundary-marker padding removed; raw IDs
standing for themselves) and concatenating reproduces exactly the raw IDs
the compress loop consumed from the slice. -/
theorem c1_round_trip_amended :
    ∀ (ids : List Nat) (vocab maxCb maxSub maxOut eot : Nat) (disabled : List Nat),
      (∀ x ∈ ids, x < vocab) → (∀ x ∈ ids, disabled.contains x = false) →
      (∀ x ∈ ids, x ≠ eot) → 1 ≤ maxSub →
      ∃ r, libCompress ids vocab maxCb maxSub maxOut eot disabled = Run.ok r ∧
        decodeSeq r.codebookVec vocab eot r.compressed
          = ids.take (min ids.length maxOut) ∧
        r.consumed = min ids.length maxOut := by
  intro ids vocab maxCb maxSub maxOut eot disabled h1 h2 h3 hms
  have hids : ∀ x ∈ ids, x < vocab ∧ x ≠ eot ∧ disabled.contains x = false :=
    fun x hx => ⟨h1 x hx, h3 x hx, h2 x hx⟩
  have hstart : C1Inv ids vocab maxCb maxSub maxOut eot 0 (startState vocab) :=
    ⟨rfl, Nat.zero_le _, rfl, fun kv hkv => absurd hkv (List.not_mem_nil kv),
      by simpa [startState] using hms, Or.inl rfl,
      fun x hx => absurd hx (List.not_mem_nil x),
      fun c hc => absurd hc (List.not_mem_nil c), rfl, Nat.zero_le _, Nat.zero_le _⟩
  obtain ⟨stF, hloop, hinvF⟩ :=
    libLoop_complete hids hms (ids.length + 1) 0 (startState vocab) hstart (by omega)
  obtain ⟨st2, hfin, hcb2, hdec2, hout2⟩ :=
    libFinish_C1 hinvF.cbVals hinvF.candLen hinvF.candOk hinvF.outBound hinvF.dec
  have hrun : libCompress ids vocab maxCb maxSub maxOut eot disabled
      = Run.ok { compressed := st2.compressed, entries := st2.cb,
                 codebookVec := serializeCodebook st2.cb maxCb maxSub eot,
                 remaining := (findEotFrom eot (ids.drop (min ids.length maxOut))
                     (min ids.length maxOut)).map (fun j => ids.drop j),
                 consumed := min ids.length maxOut } := by
    simp only [libCompress, libCompressWith]
    rw [hloop]
    dsimp only
    rw [hfin]
  refine ⟨_, hrun, ?_, rfl⟩
  show decodeSeq (serializeCodebook st2.cb maxCb maxSub eot) vocab eot st2.compressed
    = ids.take (min ids.length maxOut)
  rw [decodeSeq_eq_decodeM (by rw [hcb2]; exact hinvF.cbVals)
    (by rw [hcb2]; exact hinvF.cbLen) (by rw [hcb2]; exact hinvF.keys) hout2]
  exact hdec2

/-- Witness for the amended C1 at a concrete input: the spec section 8
example, whose decoded output reproduces the whole input. -/
theorem c1_round_trip_amended_witness :
    ∃ r, libCompress [5,6,5,6,5,6,5,6,5,6] 100 4 3 20 0 [] = Run.ok r ∧
      decodeSeq r.codebookVec 100 0 r.compressed
        = ([5,6,5,6,5,6,5,6,5,6] : List Nat).take
            (min ([5,6,5,6,5,6,5,6,5,6] : List Nat).length 20) ∧
      r.consumed = min ([5,6,5,6,5,6,5,6,5,6] : List Nat).length 20 :=
  c1_round_trip_amended [5,6,5,6,5,6,5,6,5,6] 100 4 3 20 0 []
    (by decide) (by decide) (by decide) (by decide)

/-- C1 as stated is FALSE: with boundary marker 7 (not disabled, below the
vocabulary bound) occurring in the input, a learned phrase ends in the
marker, its table row is padded with the same marker, and decoding the
table row back strips too much: the round trip fails on `[5,7,5,7,5]`. -/
theorem c1_round_trip_counterexample :
    runDecode (libCompress [5, 7, 5, 7, 5] 100 4 3 10 7 []) 100 7
      ≠ some [5, 7, 5, 7, 5] := by
  decide

end FastCompress
